import Mathlib

/-!
# A verification of the two-rotor Enigma emulator (`Enigma.py`)

Shallow embedding conventions:
* Python `str` values are embedded as `List Char` (the CPython string is a
  sequence of characters); `str.upper`, `str.split(' ')`, `str.isdigit`,
  `str.isalpha` and `int(...)` are embedded below on `List Char`.
  Alphabetic classification (`isalpha`, `upper`) is modelled on the ASCII
  range, which is the range exercised by the program's own tables.
* Python `dict` values (the plugboard and the reflector) are embedded as
  association lists with first-match lookup and overwrite-on-insert; a
  failing `d[k]` lookup (Python `KeyError`) is a `none` from `dictFind`.
* Python exceptions (`ValueError` raised by the constructors and by
  `str.index`, `IndexError` from indexing, `KeyError` from dict lookup)
  are embedded as `Except String` results carrying the message.
* All arithmetic on alphabet positions is `Nat`, except
  `Rotor.encrypt_backwards` where the Python expression can be negative
  before its final `% 26`, so it is computed in `Int` (Lean's `Int.emod`
  agrees with Python `%` for the positive modulus 26).
-/

/-- `string.ascii_uppercase` -/
def ascii_uppercase : List Char :=
  ['A','B','C','D','E','F','G','H','I','J','K','L','M',
   'N','O','P','Q','R','S','T','U','V','W','X','Y','Z']

/-- `string.ascii_lowercase` (used only to state claims about lowercase input). -/
def ascii_lowercase : List Char :=
  ['a','b','c','d','e','f','g','h','i','j','k','l','m',
   'n','o','p','q','r','s','t','u','v','w','x','y','z']

/-- `letter_to_number`: uppercase letter to its 1-based alphabet position.
For a character not in the alphabet Python's `.index` raises; every use in
the program either guards the input (see `Rotor.mk?`) or is applied to
letters proved to lie in the alphabet, where this total version agrees. -/
def letter_to_number (letter : Char) : Nat :=
  ascii_uppercase.indexOf letter + 1

/-- `number_to_letter`: 1-based position to uppercase letter.  Total
embedding; the program only calls it with arguments in `[1, 26]`. -/
def number_to_letter (number : Nat) : Char :=
  ascii_uppercase.getD (number - 1) 'A'

/-- Python `str.upper` (ASCII range). -/
def pyUpper (s : List Char) : List Char :=
  s.map Char.toUpper

/-- Python `str.isdigit`: non-empty and all digits. -/
def pyIsDigit (s : List Char) : Bool :=
  !s.isEmpty && s.all Char.isDigit

/-- Python `int(...)` on a string of decimal digits. -/
def parseDigits (s : List Char) : Nat :=
  s.foldl (fun a c => 10 * a + (c.toNat - 48)) 0

/-- Python `str.split(' ')`: split at every single space, keeping empty
pieces; the result is always non-empty. -/
def splitOnSpace : List Char → List (List Char)
  | [] => [[]]
  | c :: rest =>
    if c = ' ' then [] :: splitOnSpace rest
    else
      match splitOnSpace rest with
      | [] => [[c]]
      | t :: ts => (c :: t) :: ts

/-- Embedding of a Python `dict` from letters to letters. -/
abbrev Dict := List (Char × Char)

/-- `d[k]` lookup returning `none` where Python raises `KeyError`. -/
def dictFind : Dict → Char → Option Char
  | [], _ => none
  | (k', v) :: rest, k => if k' = k then some v else dictFind rest k

/-- `d[k] = v`: overwrite the binding if the key is present, else append. -/
def dictInsert : Dict → Char → Char → Dict
  | [], k, v => [(k, v)]
  | (k', v') :: rest, k, v =>
    if k' = k then (k, v) :: rest else (k', v') :: dictInsert rest k v

/-- The rotor state: `rotation` and `ring_setting` are 1-based alphabet
positions, `mapping` is the 26-letter wiring. -/
structure Rotor where
  rotation : Nat
  mapping : List Char
  ring_setting : Nat
deriving DecidableEq

/-- `Rotor.__init__`.  Python evaluates `letter_to_number(initial_setting)`
first (raising `ValueError` via `str.index` when the letter is not an
uppercase letter), then validates the ring-setting string. -/
def Rotor.mk? (ring_setting : List Char) (mapping : List Char)
    (initial_setting : Char) : Except String Rotor :=
  if ascii_uppercase.contains initial_setting then
    let rotation := letter_to_number initial_setting
    if pyIsDigit ring_setting then
      let rs := parseDigits ring_setting
      if rs < 1 || rs > 26 then
        .error "Ring settings must be 1-26 integers"
      else
        .ok ⟨rotation, mapping, rs⟩
    else
      .error "Ring settings must be integers"
  else
    .error "ValueError: substring not found"

/-- `Rotor.rotate`: modular increment of the 1-based rotation. -/
def Rotor.rotate (r : Rotor) : Rotor :=
  { r with rotation := (r.rotation % 26) + 1 }

/-- `Rotor.encrypt_forwards`. -/
def Rotor.encrypt_forwards (r : Rotor) (letter : Char) : Char :=
  r.mapping.getD
    ((r.rotation - 1 + (r.ring_setting - 1) + (letter_to_number letter - 1)) % 26) 'A'

/-- `Rotor.encrypt_backwards`.  The parenthesised Python expression can be
negative before `% 26`, hence `Int`. -/
def Rotor.encrypt_backwards (r : Rotor) (letter : Char) : Char :=
  number_to_letter
    ((((r.mapping.indexOf letter : Int) - ((r.rotation : Int) - 1)
        - ((r.ring_setting : Int) - 1) + 26) % 26 + 1).toNat)

/-- Error message for a plugboard token whose length is not 2. -/
def plugLenErr : String :=
  "Group two letters together for each plug, e.g. 'PD KV TW'"

/-- Error message for a plugboard token reusing an already claimed letter. -/
def plugDupErr (plug : List Char) : String :=
  "Duplicate letter used in '" ++ String.mk plug ++ "' plugboard setting"

/-- Error message for a plugboard token with non-alphabetic content. -/
def plugAlphaErr (plug : List Char) : String :=
  "Only letters are acceptable in plugboard settings. Error: '"
    ++ String.mk plug ++ "'"

/-- The plugboard-token loop of `EnigmaMachine.__init__` (lines 79-87):
per token the length check, then the duplicate-letter check against the
dict built so far, then the alphabetic check, then the two insertions. -/
def addPlugs (d : Dict) : List (List Char) → Except String Dict
  | [] => .ok d
  | plug :: rest =>
    if plug.length ≠ 2 then
      .error plugLenErr
    else if (dictFind d (plug.getD 0 'A')).isSome
         || (dictFind d (plug.getD 1 'A')).isSome then
      .error (plugDupErr plug)
    else if !plug.all Char.isAlpha then
      .error (plugAlphaErr plug)
    else
      addPlugs
        (dictInsert (dictInsert d (plug.getD 0 'A') (plug.getD 1 'A'))
          (plug.getD 1 'A') (plug.getD 0 'A'))
        rest

/-- The fill loop of `EnigmaMachine.__init__` (lines 88-90): every letter
not yet a key is mapped to itself. -/
def fillSelf (d : Dict) : Dict :=
  ascii_uppercase.foldl
    (fun d letter => if (dictFind d letter).isSome then d else dictInsert d letter letter)
    d

/-- Plugboard construction (lines 75-90 of `EnigmaMachine.__init__`):
uppercase the specification, run the token loop when non-empty, fill the
remaining letters with identity bindings. -/
def buildPlugboard (plugboard : List Char) : Except String Dict :=
  let p := pyUpper plugboard
  (if p.length > 0 then addPlugs [] (splitOnSpace p) else .ok []).map fillSelf

/-- Rotor I wiring `EKMFLGDQVZNTOWYHXUSPAIBRCJ`. -/
def wiring1 : List Char :=
  ['E','K','M','F','L','G','D','Q','V','Z','N','T','O',
   'W','Y','H','X','U','S','P','A','I','B','R','C','J']

/-- Rotor II wiring `AJDKSIRUXBLHWTMCQGZNPYFVOE`. -/
def wiring2 : List Char :=
  ['A','J','D','K','S','I','R','U','X','B','L','H','W',
   'T','M','C','Q','G','Z','N','P','Y','F','V','O','E']

/-- UKW-B reflector mapping `YRUHQSLDPXNGOKMIEBFZCWVJAT`. -/
def reflector_mapping : List Char :=
  ['Y','R','U','H','Q','S','L','D','P','X','N','G','O',
   'K','M','I','E','B','F','Z','C','W','V','J','A','T']

/-- `dict(zip(string.ascii_uppercase, reflector_mapping))`. -/
def reflectorDict : Dict :=
  ascii_uppercase.zip reflector_mapping

/-- The machine state after `EnigmaMachine.__init__`. -/
structure EnigmaMachine where
  rotor1 : Rotor
  rotor2 : Rotor
  plugboard : Dict
  initial_settings : List Char
  reflector : Dict
deriving DecidableEq

/-- `EnigmaMachine.__init__` in source evaluation order: split the ring
settings, uppercase the initial settings, build rotor1 (indexing
`initial_settings[0]` first), then rotor2 (indexing `ring_settings[1]`
then `initial_settings[1]`), then the plugboard, storing the reflector
table.  A missing index is Python's `IndexError`. -/
def EnigmaMachine.mk? (ring_settings : List Char) (plugboard : List Char)
    (initial_settings : List Char) : Except String EnigmaMachine :=
  let rs := splitOnSpace ring_settings
  let is := pyUpper initial_settings
  match is.get? 0 with
  | none => .error "IndexError: string index out of range"
  | some i0 =>
    match Rotor.mk? (rs.getD 0 []) wiring1 i0 with
    | .error e => .error e
    | .ok rotor1 =>
      match rs.get? 1 with
      | none => .error "IndexError: list index out of range"
      | some r1 =>
        match is.get? 1 with
        | none => .error "IndexError: string index out of range"
        | some i1 =>
          match Rotor.mk? r1 wiring2 i1 with
          | .error e => .error e
          | .ok rotor2 =>
            (buildPlugboard plugboard).map fun pb =>
              ⟨rotor1, rotor2, pb, is, reflectorDict⟩

/-- The stepping prelude of one keystroke (`Encrypt` lines 111-113):
rotor2 steps when rotor1's pre-step rotation reads `Q`, then rotor1 steps. -/
def EnigmaMachine.stepRotors (m : EnigmaMachine) : EnigmaMachine :=
  let m' :=
    if number_to_letter m.rotor1.rotation = 'Q' then
      { m with rotor2 := m.rotor2.rotate }
    else m
  { m' with rotor1 := m'.rotor1.rotate }

/-- The substitution path of one keystroke (`Encrypt` lines 116-122):
plugboard, rotor1 forward, rotor2 forward, reflector, rotor2 backward,
rotor1 backward, plugboard; `none` where a dict lookup raises `KeyError`. -/
def EnigmaMachine.pressKey (m : EnigmaMachine) (letter : Char) : Option Char :=
  (dictFind m.plugboard letter).bind fun letter1 =>
    let letter2 := m.rotor1.encrypt_forwards letter1
    let letter3 := m.rotor2.encrypt_forwards letter2
    (dictFind m.reflector letter3).bind fun letter4 =>
      let letter5 := m.rotor2.encrypt_backwards letter4
      let letter6 := m.rotor1.encrypt_backwards letter5
      dictFind m.plugboard letter6

/-- The `Encrypt` loop: `cipherText` and `letter_count` accumulate over the
message; non-alphabetic characters are skipped; a space is appended after
every fifth emitted letter; the pair carries the mutated machine together
with the result (an exception aborts the loop with the machine as mutated
so far, matching Python's in-place rotor mutation). -/
def EnigmaMachine.encryptGo (m : EnigmaMachine) (cipherText : List Char)
    (letter_count : Nat) : List Char → EnigmaMachine × Except String (List Char)
  | [] => (m, .ok cipherText)
  | letter :: rest =>
    if letter.isAlpha then
      let m1 := m.stepRotors
      match m1.pressKey letter with
      | none => (m1, .error "KeyError")
      | some letter7 =>
        let lc := (letter_count + 1) % 5
        let ct := cipherText ++ [letter7] ++ (if lc = 0 then [' '] else [])
        m1.encryptGo ct lc rest
    else
      m.encryptGo cipherText letter_count rest

/-- `EnigmaMachine.Encrypt`. -/
def EnigmaMachine.Encrypt (m : EnigmaMachine) (message : List Char) :
    EnigmaMachine × Except String (List Char) :=
  m.encryptGo [] 0 message

/-- Whether an `Except` result is an error (a raised Python exception). -/
def isErr {α : Type} : Except String α → Bool
  | .error _ => true
  | .ok _ => false

/-- A letter is claimed by some token of the list. -/
def claimedIn (toks : List (List Char)) (c : Char) : Bool :=
  toks.any fun q => q.contains c

/-- A token reuses a letter that appears in an earlier token. -/
def reusesEarlier (earlier : List (List Char)) (p : List Char) : Bool :=
  p.any fun c => claimedIn earlier c

/-- A token is bad relative to the tokens before it: wrong length,
reuse of an earlier token's letter, or non-alphabetic content.
Stated on the raw token list, independently of the construction loop. -/
def tokenBad (earlier : List (List Char)) (p : List Char) : Bool :=
  p.length ≠ 2 || reusesEarlier earlier p || !(p.all Char.isAlpha)

/-- Some token of the list is bad relative to its predecessors. -/
def specHasBad (earlier : List (List Char)) : List (List Char) → Bool
  | [] => false
  | p :: rest => tokenBad earlier p || specHasBad (earlier ++ [p]) rest

/-- The plugboard dict built from the specification `"AB CD"`. -/
def plugboardABCD : Dict :=
  (buildPlugboard ['A','B',' ','C','D']).toOption.getD []

/-- Wellformedness of a machine state, as established by the constructor:
rotations and ring settings in `[1, 26]`, the two historical wirings, the
UKW-B reflector, and a total, involutive, letters-only plugboard.  Stated
in decidable form. -/
abbrev EnigmaMachine.Wellformed (m : EnigmaMachine) : Prop :=
  (1 ≤ m.rotor1.rotation ∧ m.rotor1.rotation ≤ 26) ∧
  (1 ≤ m.rotor2.rotation ∧ m.rotor2.rotation ≤ 26) ∧
  (1 ≤ m.rotor1.ring_setting ∧ m.rotor1.ring_setting ≤ 26) ∧
  (1 ≤ m.rotor2.ring_setting ∧ m.rotor2.ring_setting ≤ 26) ∧
  m.rotor1.mapping = wiring1 ∧ m.rotor2.mapping = wiring2 ∧
  m.reflector = reflectorDict ∧
  (∀ L ∈ ascii_uppercase, (dictFind m.plugboard L).isSome = true ∧
    (dictFind m.plugboard L).getD 'A' ∈ ascii_uppercase ∧
    dictFind m.plugboard ((dictFind m.plugboard L).getD 'A') = some L) ∧
  (∀ e ∈ m.plugboard, e.1 ∈ ascii_uppercase)

/-- The 5-letter grouping discipline of `Encrypt`, stated as a pure
function on the emitted letter sequence: starting from letter count `lc`,
a space follows every letter that brings the count to a multiple of 5. -/
def addGrouping (lc : Nat) : List Char → List Char
  | [] => []
  | c :: rest =>
    c :: ((if (lc + 1) % 5 = 0 then [' '] else []) ++ addGrouping ((lc + 1) % 5) rest)

/-- The letter-level core of the `Encrypt` loop (no grouping, no
non-alphabetic skipping): step the rotors, press the key, collect the
output letter; used to relate a run of `Encrypt` to its emitted letters. -/
def encLetters (m : EnigmaMachine) : List Char → Option (EnigmaMachine × List Char)
  | [] => some (m, [])
  | c :: rest =>
    let m1 := m.stepRotors
    match m1.pressKey c with
    | none => none
    | some d =>
      match encLetters m1 rest with
      | none => none
      | some (m', ds) => some (m', d :: ds)

/-- The number of rotor-2 turnovers during `n` keystrokes when rotor 1
starts at rotation `ρ`: one per keystroke whose pre-step rotation is 17
(the letter `Q`). -/
def rotor2Steps : Nat → Nat → Nat
  | _, 0 => 0
  | ρ, n + 1 => (if ρ = 17 then 1 else 0) + rotor2Steps (ρ % 26 + 1) n

/-- A fallback machine value for extracting constructor results. -/
def defaultMachine : EnigmaMachine :=
  ⟨⟨1, wiring1, 1⟩, ⟨1, wiring2, 1⟩, [], [], reflectorDict⟩

/-- The machine built from ring settings `"1 1"`, empty plugboard and
initial settings `"AA"`. -/
def machineAA : EnigmaMachine :=
  (EnigmaMachine.mk? ['1', ' ', '1'] [] ['A', 'A']).toOption.getD defaultMachine

/-- A 12-letter plaintext. -/
def msg12 : List Char :=
  ['A','B','C','D','E','F','G','H','I','J','K','L']

/-- The ciphertext `machineAA` produces for `msg12`. -/
def out12 : List Char :=
  ((machineAA.Encrypt msg12).2).toOption.getD []

/-- The ciphertext `machineAA` produces for `HELLO`. -/
def ctHello : List Char :=
  ((machineAA.Encrypt ['H','E','L','L','O']).2).toOption.getD []

/-- The machine state after `machineAA` encrypts `HELLO`. -/
def machineAfterHello : EnigmaMachine :=
  (machineAA.Encrypt ['H','E','L','L','O']).1

theorem char_isUpper_iff {c : Char} : c.isUpper = true ↔ 65 ≤ c.toNat ∧ c.toNat ≤ 90 := by
  have hb : c.val.toBitVec.toNat = c.toNat := rfl
  simp [Char.isUpper, UInt32.le_def, BitVec.le_def, Char.toNat] at hb ⊢
  omega

theorem char_isLower_iff {c : Char} : c.isLower = true ↔ 97 ≤ c.toNat ∧ c.toNat ≤ 122 := by
  have hb : c.val.toBitVec.toNat = c.toNat := rfl
  simp [Char.isLower, UInt32.le_def, BitVec.le_def, Char.toNat] at hb ⊢
  omega

theorem mem_ascii_of_isUpper {c : Char} (h : c.isUpper = true) : c ∈ ascii_uppercase := by
  obtain ⟨h1, h2⟩ := char_isUpper_iff.mp h
  have hc : Char.ofNat c.toNat = c := Char.ofNat_toNat c
  interval_cases hn : c.toNat <;> (rw [← hc]; decide)

theorem isUpper_of_mem_ascii {c : Char} (h : c ∈ ascii_uppercase) : c.isUpper = true := by
  fin_cases h <;> decide

theorem toUpper_mem_of_alpha {c : Char} (h : (Char.toUpper c).isAlpha = true) :
    Char.toUpper c ∈ ascii_uppercase := by
  unfold Char.toUpper at h ⊢
  by_cases hc : c.toNat ≥ 97 ∧ c.toNat ≤ 122
  · rw [if_pos hc] at h ⊢
    obtain ⟨h1, h2⟩ := hc
    interval_cases hn : c.toNat <;> decide
  · rw [if_neg hc] at h ⊢
    simp [Char.isAlpha] at h
    rcases h with h | h
    · exact mem_ascii_of_isUpper h
    · exfalso
      obtain ⟨h1, h2⟩ := char_isLower_iff.mp h
      omega

theorem not_isUpper_of_isLower {c : Char} (h : c.isLower = true) : c.isUpper = false := by
  obtain ⟨h1, h2⟩ := char_isLower_iff.mp h
  by_contra hu
  simp at hu
  obtain ⟨h3, h4⟩ := char_isUpper_iff.mp hu
  omega

theorem ltn_bounds : ∀ L ∈ ascii_uppercase, 1 ≤ letter_to_number L ∧ letter_to_number L ≤ 26 := by
  decide

theorem ntl_ltn : ∀ L ∈ ascii_uppercase, number_to_letter (letter_to_number L) = L := by
  decide

theorem ltn_ntl : ∀ n, n < 27 → 1 ≤ n → letter_to_number (number_to_letter n) = n := by
  decide

theorem ntl_mem : ∀ n, n < 27 → 1 ≤ n → number_to_letter n ∈ ascii_uppercase := by
  decide

theorem wiring1_idx_get : ∀ j, j < 26 → wiring1.indexOf (wiring1.getD j 'A') = j := by
  decide

theorem wiring2_idx_get : ∀ j, j < 26 → wiring2.indexOf (wiring2.getD j 'A') = j := by
  decide

theorem wiring1_get_idx : ∀ L ∈ ascii_uppercase,
    wiring1.indexOf L < 26 ∧ wiring1.getD (wiring1.indexOf L) 'A' = L := by
  decide

theorem wiring2_get_idx : ∀ L ∈ ascii_uppercase,
    wiring2.indexOf L < 26 ∧ wiring2.getD (wiring2.indexOf L) 'A' = L := by
  decide

theorem wiring1_mem : ∀ j, j < 26 → wiring1.getD j 'A' ∈ ascii_uppercase := by
  decide

theorem wiring2_mem : ∀ j, j < 26 → wiring2.getD j 'A' ∈ ascii_uppercase := by
  decide

theorem rotor_bf_aux (W : List Char)
    (hw1 : ∀ j, j < 26 → W.indexOf (W.getD j 'A') = j)
    (rot ring : Nat) (hrot : 1 ≤ rot) (hring : 1 ≤ ring)
    {L : Char} (hL : L ∈ ascii_uppercase) :
    (⟨rot, W, ring⟩ : Rotor).encrypt_backwards
      ((⟨rot, W, ring⟩ : Rotor).encrypt_forwards L) = L := by
  obtain ⟨hm1, hm2⟩ := ltn_bounds L hL
  have hntl := ntl_ltn L hL
  simp only [Rotor.encrypt_forwards, Rotor.encrypt_backwards]
  set m := letter_to_number L with hmdef
  set j := (rot - 1 + (ring - 1) + (m - 1)) % 26 with hj
  have hj26 : j < 26 := Nat.mod_lt _ (by norm_num)
  rw [hw1 j hj26]
  have harith : ((((j : Int)) - ((rot : Int) - 1) - ((ring : Int) - 1) + 26) % 26 + 1).toNat = m := by
    omega
  rw [harith, hntl]

theorem rotor_fb_aux (W : List Char)
    (hw2 : ∀ L ∈ ascii_uppercase, W.indexOf L < 26 ∧ W.getD (W.indexOf L) 'A' = L)
    (rot ring : Nat) (hrot : 1 ≤ rot) (hring : 1 ≤ ring)
    {L : Char} (hL : L ∈ ascii_uppercase) :
    (⟨rot, W, ring⟩ : Rotor).encrypt_forwards
      ((⟨rot, W, ring⟩ : Rotor).encrypt_backwards L) = L := by
  obtain ⟨hidx, hget⟩ := hw2 L hL
  simp only [Rotor.encrypt_backwards, Rotor.encrypt_forwards]
  set t : Int := (((W.indexOf L : Nat) : Int) - ((rot : Int) - 1) - ((ring : Int) - 1) + 26) % 26
    with ht
  have ht0 : 0 ≤ t := Int.emod_nonneg _ (by norm_num)
  have ht26 : t < 26 := Int.emod_lt_of_pos _ (by norm_num)
  have hnb : letter_to_number (number_to_letter (t + 1).toNat) = (t + 1).toNat :=
    ltn_ntl _ (by omega) (by omega)
  rw [hnb]
  have hidxeq : (rot - 1 + (ring - 1) + ((t + 1).toNat - 1)) % 26 = W.indexOf L := by
    omega
  rw [hidxeq, hget]

theorem rotor_forwards_mem (W : List Char)
    (hw3 : ∀ j, j < 26 → W.getD j 'A' ∈ ascii_uppercase) (rot ring : Nat) (L : Char) :
    (⟨rot, W, ring⟩ : Rotor).encrypt_forwards L ∈ ascii_uppercase := by
  simp only [Rotor.encrypt_forwards]
  exact hw3 _ (Nat.mod_lt _ (by norm_num))

theorem rotor_backwards_mem (W : List Char) (rot ring : Nat) (L : Char) :
    (⟨rot, W, ring⟩ : Rotor).encrypt_backwards L ∈ ascii_uppercase := by
  simp only [Rotor.encrypt_backwards]
  set t : Int := (((W.indexOf L : Nat) : Int) - ((rot : Int) - 1) - ((ring : Int) - 1) + 26) % 26
    with ht
  have ht0 : 0 ≤ t := Int.emod_nonneg _ (by norm_num)
  have ht26 : t < 26 := Int.emod_lt_of_pos _ (by norm_num)
  exact ntl_mem _ (by omega) (by omega)

/-- C2: for every rotor of this machine (either historical wiring, ring
setting and rotation in `[1, 26]`) and every uppercase letter `L`,
`encrypt_backwards (encrypt_forwards L) = L` and
`encrypt_forwards (encrypt_backwards L) = L` at the fixed state, and both
directions map the 26 letters into the 26 letters, so each is a bijection
on them with the other as inverse. -/
theorem C2_rotor_inverse (r : Rotor)
    (hW : r.mapping = wiring1 ∨ r.mapping = wiring2)
    (hrot1 : 1 ≤ r.rotation) (hrot2 : r.rotation ≤ 26)
    (hring1 : 1 ≤ r.ring_setting) (hring2 : r.ring_setting ≤ 26) :
    ∀ L ∈ ascii_uppercase,
      r.encrypt_backwards (r.encrypt_forwards L) = L ∧
      r.encrypt_forwards (r.encrypt_backwards L) = L ∧
      r.encrypt_forwards L ∈ ascii_uppercase ∧
      r.encrypt_backwards L ∈ ascii_uppercase := by
  intro L hL
  obtain ⟨rot, W, ring⟩ := r
  simp only at hW hrot1 hrot2 hring1 hring2
  rcases hW with hW | hW <;> subst hW
  · exact ⟨rotor_bf_aux _ wiring1_idx_get rot ring hrot1 hring1 hL,
      rotor_fb_aux _ wiring1_get_idx rot ring hrot1 hring1 hL,
      rotor_forwards_mem _ wiring1_mem rot ring L,
      rotor_backwards_mem _ rot ring L⟩
  · exact ⟨rotor_bf_aux _ wiring2_idx_get rot ring hrot1 hring1 hL,
      rotor_fb_aux _ wiring2_get_idx rot ring hrot1 hring1 hL,
      rotor_forwards_mem _ wiring2_mem rot ring L,
      rotor_backwards_mem _ rot ring L⟩

/-- Witness for C2 at a concrete rotor and letter. -/
theorem C2_witness :
    (⟨1, wiring1, 1⟩ : Rotor).encrypt_backwards
        ((⟨1, wiring1, 1⟩ : Rotor).encrypt_forwards 'A') = 'A' ∧
      (⟨1, wiring1, 1⟩ : Rotor).encrypt_forwards
        ((⟨1, wiring1, 1⟩ : Rotor).encrypt_backwards 'A') = 'A' ∧
      (⟨1, wiring1, 1⟩ : Rotor).encrypt_forwards 'A' ∈ ascii_uppercase ∧
      (⟨1, wiring1, 1⟩ : Rotor).encrypt_backwards 'A' ∈ ascii_uppercase :=
  C2_rotor_inverse ⟨1, wiring1, 1⟩ (Or.inl rfl) (by decide) (by decide)
    (by decide) (by decide) 'A' (by decide)

/-- One-step rotation on the bare rotation number, as `rotate` performs it. -/
theorem rotate_iterate (n : Nat) (r : Rotor) :
    Rotor.rotate^[n] r =
      ⟨(fun ρ => ρ % 26 + 1)^[n] r.rotation, r.mapping, r.ring_setting⟩ := by
  induction n generalizing r with
  | zero => simp
  | succ n ih =>
    rw [Function.iterate_succ_apply, Function.iterate_succ_apply, ih]
    rfl

theorem rot_iter_26 : ∀ ρ, ρ < 27 → 1 ≤ ρ → (fun ρ => ρ % 26 + 1)^[26] ρ = ρ := by
  decide

/-- C9: `rotate` advances the rotation by one wrapping 26 back to 1, keeps
it in `[1, 26]`, and 26 applications restore the rotor exactly. -/
theorem C9_rotate_cycle (r : Rotor) (h1 : 1 ≤ r.rotation) (h2 : r.rotation ≤ 26) :
    (r.rotate.rotation = if r.rotation = 26 then 1 else r.rotation + 1) ∧
    1 ≤ r.rotate.rotation ∧ r.rotate.rotation ≤ 26 ∧
    Rotor.rotate^[26] r = r := by
  refine ⟨?_, ?_, ?_, ?_⟩
  · simp only [Rotor.rotate]
    split <;> omega
  · simp only [Rotor.rotate]; omega
  · simp only [Rotor.rotate]; omega
  · rw [rotate_iterate]
    have h := rot_iter_26 r.rotation (by omega) h1
    obtain ⟨rot, W, ring⟩ := r
    simp only at h ⊢
    rw [h]

/-- Witness for C9 at a concrete rotor. -/
theorem C9_witness :
    ((⟨5, wiring1, 3⟩ : Rotor).rotate.rotation = if (5 : Nat) = 26 then 1 else 5 + 1) ∧
    1 ≤ (⟨5, wiring1, 3⟩ : Rotor).rotate.rotation ∧
    (⟨5, wiring1, 3⟩ : Rotor).rotate.rotation ≤ 26 ∧
    Rotor.rotate^[26] (⟨5, wiring1, 3⟩ : Rotor) = ⟨5, wiring1, 3⟩ :=
  C9_rotate_cycle ⟨5, wiring1, 3⟩ (by decide) (by decide)

/-- C8 counterexample: with ring-setting string `"5"` (all digits, parses
to 5 which lies in `[1, 26]`) but initial-setting character `'1'`, rotor
construction still fails, because `letter_to_number` (Python `str.index`)
raises before the ring setting is even examined.  So "construction fails
iff the ring setting is bad" is false as stated. -/
theorem C8_counterexample :
    isErr (Rotor.mk? ['5'] wiring1 '1') = true ∧
    pyIsDigit ['5'] = true ∧ 1 ≤ parseDigits ['5'] ∧ parseDigits ['5'] ≤ 26 := by
  decide

/-- C8 (amended): provided the initial-setting character is an uppercase
letter, rotor construction fails iff the ring-setting string is not all
digits or the parsed integer lies outside `[1, 26]`; on success the stored
`ring_setting` is the parsed integer and lies in `[1, 26]`. -/
theorem C8_ring_setting_validation (rs mapping : List Char) (init : Char)
    (hinit : init ∈ ascii_uppercase) :
    (isErr (Rotor.mk? rs mapping init) = true ↔
      (pyIsDigit rs = false ∨ parseDigits rs < 1 ∨ 26 < parseDigits rs)) ∧
    (∀ r, Rotor.mk? rs mapping init = .ok r →
      r.ring_setting = parseDigits rs ∧ 1 ≤ r.ring_setting ∧ r.ring_setting ≤ 26) := by
  have hc : ascii_uppercase.contains init = true := by
    fin_cases hinit <;> decide
  unfold Rotor.mk?
  rw [if_pos hc]
  by_cases hd : pyIsDigit rs
  · rw [if_pos hd]
    by_cases hr : parseDigits rs < 1 || parseDigits rs > 26
    · rw [if_pos hr]
      simp only [isErr]
      constructor
      · constructor
        · intro _
          simp only [Bool.or_eq_true, decide_eq_true_eq] at hr
          rcases hr with hr | hr
          · exact Or.inr (Or.inl hr)
          · exact Or.inr (Or.inr hr)
        · intro _; trivial
      · intro r hcontra
        exact absurd hcontra (by simp)
    · rw [if_neg hr]
      simp only [Bool.or_eq_true, decide_eq_true_eq, not_or, Nat.not_lt] at hr
      obtain ⟨hr1, hr2⟩ := hr
      simp only [isErr]
      constructor
      · constructor
        · intro h; exact absurd h (by simp)
        · intro h
          rcases h with h | h | h
          · rw [hd] at h; exact absurd h (by simp)
          · exfalso; omega
          · exfalso; omega
      · intro r hr
        cases hr
        exact ⟨rfl, hr1, hr2⟩
  · rw [if_neg hd]
    simp only [isErr]
    constructor
    · constructor
      · intro _
        exact Or.inl (by simpa using hd)
      · intro _; trivial
    · intro r hcontra
      exact absurd hcontra (by simp)

theorem dictFind_insert (d : Dict) (k v k' : Char) :
    dictFind (dictInsert d k v) k' = if k = k' then some v else dictFind d k' := by
  induction d with
  | nil => simp [dictInsert, dictFind]
  | cons e rest ih =>
    obtain ⟨a, b⟩ := e
    by_cases hak : a = k <;> by_cases hkk' : k = k' <;> by_cases hak' : a = k' <;>
      simp_all [dictInsert, dictFind]

theorem addPlugs_isErr (plugs : List (List Char)) (d : Dict)
    (earlier : List (List Char))
    (hinv : ∀ c, (dictFind d c).isSome = claimedIn earlier c) :
    isErr (addPlugs d plugs) = specHasBad earlier plugs := by
  induction plugs generalizing d earlier with
  | nil => simp [addPlugs, specHasBad, isErr]
  | cons p rest ih =>
    by_cases hlen : p.length = 2
    · obtain ⟨a, b, hp⟩ := List.length_eq_two.mp hlen
      subst hp
      simp only [addPlugs, specHasBad, tokenBad]
      have hgd0 : [a, b].getD 0 'A' = a := rfl
      have hgd1 : [a, b].getD 1 'A' = b := rfl
      rw [hgd0, hgd1]
      have hlen2 : ([a, b].length ≠ 2) = False := by simp
      have hre : ((dictFind d a).isSome || (dictFind d b).isSome)
          = reusesEarlier earlier [a, b] := by
        simp [reusesEarlier, hinv]
      by_cases hdup : ((dictFind d a).isSome || (dictFind d b).isSome) = true
      · rw [if_neg (by simp), if_pos hdup]
        simp [isErr, ← hre, hdup]
      · rw [if_neg (by simp), if_neg hdup]
        have hre' : reusesEarlier earlier [a, b] = false := by
          rw [← hre]; simpa using hdup
        by_cases halpha : [a, b].all Char.isAlpha = true
        · rw [if_neg (by simp [halpha])]
          have hinv2 : ∀ c, (dictFind (dictInsert (dictInsert d a b) b a) c).isSome
              = claimedIn (earlier ++ [[a, b]]) c := by
            intro c
            simp only [dictFind_insert, claimedIn, List.any_append]
            by_cases hbc : b = c
            · subst hbc; simp
            · by_cases hac : a = c
              · subst hac; simp [hbc]
              · rw [if_neg hbc, if_neg hac, hinv c]
                have hca : ¬c = a := fun h => hac h.symm
                have hcb : ¬c = b := fun h => hbc h.symm
                have hnone : ([[a, b]].any fun q => q.contains c) = false := by
                  simp [hca, hcb]
                rw [claimedIn, hnone, Bool.or_false]
          rw [ih _ _ hinv2]
          simp [hre', halpha]
        · have halpha2 : [a, b].all Char.isAlpha = false := by
            revert halpha
            cases ([a, b].all Char.isAlpha) <;> simp
          rw [if_pos (by simp [halpha2])]
          simp only [isErr]
          simp [hre', halpha2]
    · simp [addPlugs, specHasBad, tokenBad, hlen, isErr]

theorem isErr_map {α β : Type} (f : α → β) (e : Except String α) :
    isErr (e.map f) = isErr e := by
  cases e <;> rfl

theorem dictFind_fillLoop (letters : List Char) (d : Dict) (c : Char) :
    dictFind (letters.foldl
        (fun d letter => if (dictFind d letter).isSome then d else dictInsert d letter letter)
        d) c =
      if c ∈ letters ∧ dictFind d c = none then some c else dictFind d c := by
  induction letters generalizing d with
  | nil => simp
  | cons l ls ih =>
    simp only [List.foldl_cons]
    rw [ih]
    by_cases hl : (dictFind d l).isSome = true
    · rw [if_pos hl]
      have hne : dictFind d l ≠ none := fun h => by rw [h] at hl; simp at hl
      by_cases hc : c ∈ ls ∧ dictFind d c = none
      · rw [if_pos hc, if_pos ⟨List.mem_cons_of_mem _ hc.1, hc.2⟩]
      · rw [if_neg hc, if_neg ?_]
        rintro ⟨hmem, hnone⟩
        apply hc
        rcases List.mem_cons.mp hmem with h | hmem'
        · subst h; exact absurd hnone hne
        · exact ⟨hmem', hnone⟩
    · rw [if_neg hl]
      have hnone : dictFind d l = none := by
        cases hfd : dictFind d l
        · rfl
        · rw [hfd] at hl; simp at hl
      by_cases hlc : l = c
      · subst hlc
        have hfind : dictFind (dictInsert d l l) l = some l := by
          rw [dictFind_insert]; simp
        rw [if_neg ?hn, hfind, if_pos ⟨List.mem_cons_self _ _, hnone⟩]
        case hn =>
          rintro ⟨_, hcontra⟩
          rw [hfind] at hcontra
          exact Option.some_ne_none _ hcontra
      · have hfc : dictFind (dictInsert d l l) c = dictFind d c := by
          rw [dictFind_insert, if_neg hlc]
        rw [hfc]
        by_cases hc : c ∈ ls ∧ dictFind d c = none
        · rw [if_pos hc, if_pos ⟨List.mem_cons_of_mem _ hc.1, hc.2⟩]
        · rw [if_neg hc, if_neg ?_]
          rintro ⟨hmem, hnone2⟩
          apply hc
          rcases List.mem_cons.mp hmem with h | hmem'
          · exact absurd h.symm hlc
          · exact ⟨hmem', hnone2⟩

theorem dictFind_fillSelf (d : Dict) (c : Char) :
    dictFind (fillSelf d) c =
      if c ∈ ascii_uppercase ∧ dictFind d c = none then some c else dictFind d c :=
  dictFind_fillLoop ascii_uppercase d c

theorem buildPlugboard_isErr (s : List Char) :
    isErr (buildPlugboard s) =
      (!s.isEmpty && specHasBad [] (splitOnSpace (pyUpper s))) := by
  unfold buildPlugboard
  rw [isErr_map]
  by_cases hs : s = []
  · subst hs; rfl
  · have hlen : (pyUpper s).length > 0 := by
      simp only [pyUpper, List.length_map]
      exact List.length_pos.mpr hs
    rw [if_pos hlen, addPlugs_isErr _ [] [] (fun c => rfl)]
    have hemp : s.isEmpty = false := by
      cases s
      · exact absurd rfl hs
      · rfl
    rw [hemp]
    rfl

theorem addPlugs_ok_invariants (plugs : List (List Char)) (d d' : Dict)
    (earlier : List (List Char))
    (hup : ∀ p ∈ plugs, ∀ c ∈ p, c.isAlpha = true → c ∈ ascii_uppercase)
    (h1 : ∀ c, (dictFind d c).isSome = claimedIn earlier c)
    (h2 : ∀ k v, dictFind d k = some v → dictFind d v = some k)
    (h3 : ∀ k v, dictFind d k = some v → k ∈ ascii_uppercase ∧ v ∈ ascii_uppercase)
    (hok : addPlugs d plugs = .ok d') :
    (∀ c, (dictFind d' c).isSome = claimedIn (earlier ++ plugs) c) ∧
    (∀ k v, dictFind d' k = some v → dictFind d' v = some k) ∧
    (∀ k v, dictFind d' k = some v → k ∈ ascii_uppercase ∧ v ∈ ascii_uppercase) := by
  induction plugs generalizing d earlier with
  | nil =>
    simp only [addPlugs] at hok
    cases hok
    refine ⟨?_, h2, h3⟩
    intro c
    rw [h1 c]
    simp [claimedIn]
  | cons p rest ih =>
    by_cases hlen : p.length = 2
    · obtain ⟨a, b, hp⟩ := List.length_eq_two.mp hlen
      subst hp
      simp only [addPlugs] at hok
      rw [if_neg (by simp)] at hok
      by_cases hdup : ((dictFind d ([a, b].getD 0 'A')).isSome
          || (dictFind d ([a, b].getD 1 'A')).isSome) = true
      · rw [if_pos hdup] at hok
        exact absurd hok (by simp)
      · rw [if_neg hdup] at hok
        by_cases halpha : [a, b].all Char.isAlpha = true
        · rw [if_neg (by simp [halpha])] at hok
          have hgd0 : [a, b].getD 0 'A' = a := rfl
          have hgd1 : [a, b].getD 1 'A' = b := rfl
          rw [hgd0, hgd1] at hok hdup
          simp only [Bool.or_eq_true, not_or] at hdup
          obtain ⟨hda, hdb⟩ := hdup
          have hdan : dictFind d a = none := by
            cases hfd : dictFind d a
            · rfl
            · rw [hfd] at hda; simp at hda
          have hdbn : dictFind d b = none := by
            cases hfd : dictFind d b
            · rfl
            · rw [hfd] at hdb; simp at hdb
          have hax : a ∈ ascii_uppercase := by
            refine hup [a, b] (List.mem_cons_self _ _) a (by simp) ?_
            simp only [List.all_cons, List.all_nil, Bool.and_eq_true] at halpha
            exact halpha.1
          have hbx : b ∈ ascii_uppercase := by
            refine hup [a, b] (List.mem_cons_self _ _) b (by simp) ?_
            simp only [List.all_cons, List.all_nil, Bool.and_eq_true] at halpha
            exact halpha.2.1
          set d2 := dictInsert (dictInsert d a b) b a with hd2
          have hfd2 : ∀ c, dictFind d2 c =
              if b = c then some a else if a = c then some b else dictFind d c := by
            intro c
            rw [hd2, dictFind_insert, dictFind_insert]
          have h1' : ∀ c, (dictFind d2 c).isSome = claimedIn (earlier ++ [[a, b]]) c := by
            intro c
            rw [hfd2 c]
            simp only [claimedIn, List.any_append]
            by_cases hbc : b = c
            · subst hbc; simp
            · by_cases hac : a = c
              · subst hac; simp [hbc]
              · have hca : ¬c = a := fun h => hac h.symm
                have hcb : ¬c = b := fun h => hbc h.symm
                rw [if_neg hbc, if_neg hac, h1 c]
                have hnone : ([[a, b]].any fun q => q.contains c) = false := by
                  simp [hca, hcb]
                rw [claimedIn, hnone, Bool.or_false]
          have h2' : ∀ k v, dictFind d2 k = some v → dictFind d2 v = some k := by
            intro k v hkv
            rw [hfd2 k] at hkv
            rw [hfd2 v]
            by_cases hbk : b = k
            · rw [if_pos hbk] at hkv
              have hva : a = v := Option.some.inj hkv
              by_cases hbv : b = v
              · rw [if_pos hbv]
                exact congrArg some (hva.trans (hbv.symm.trans hbk))
              · rw [if_neg hbv, if_pos hva]
                exact congrArg some hbk
            · rw [if_neg hbk] at hkv
              by_cases hak : a = k
              · rw [if_pos hak] at hkv
                have hbv : b = v := Option.some.inj hkv
                rw [if_pos hbv]
                exact congrArg some hak
              · rw [if_neg hak] at hkv
                have hsym := h2 k v hkv
                have hvb : ¬b = v := by
                  intro hbv
                  rw [← hbv] at hsym
                  rw [hsym] at hdbn
                  exact Option.some_ne_none _ hdbn
                have hva : ¬a = v := by
                  intro hav
                  rw [← hav] at hsym
                  rw [hsym] at hdan
                  exact Option.some_ne_none _ hdan
                rw [if_neg hvb, if_neg hva]
                exact hsym
          have h3' : ∀ k v, dictFind d2 k = some v →
              k ∈ ascii_uppercase ∧ v ∈ ascii_uppercase := by
            intro k v hkv
            rw [hfd2 k] at hkv
            by_cases hbk : b = k
            · have hva : a = v := Option.some.inj (by rwa [if_pos hbk] at hkv)
              exact ⟨hbk ▸ hbx, hva ▸ hax⟩
            · rw [if_neg hbk] at hkv
              by_cases hak : a = k
              · have hbv : b = v := Option.some.inj (by rwa [if_pos hak] at hkv)
                exact ⟨hak ▸ hax, hbv ▸ hbx⟩
              · rw [if_neg hak] at hkv
                exact h3 k v hkv
          have hup2 : ∀ p ∈ rest, ∀ c ∈ p, c.isAlpha = true → c ∈ ascii_uppercase :=
            fun p hp => hup p (List.mem_cons_of_mem _ hp)
          have hres := ih d2 (earlier ++ [[a, b]]) hup2 h1' h2' h3' hok
          rw [List.append_assoc] at hres
          exact hres
        · have halpha2 : [a, b].all Char.isAlpha = false := by
            revert halpha
            cases ([a, b].all Char.isAlpha) <;> simp
          rw [if_pos (by simp [halpha2])] at hok
          exact absurd hok (by simp)
    · simp only [addPlugs] at hok
      rw [if_pos (by simpa using hlen)] at hok
      exact absurd hok (by simp)

theorem splitOnSpace_ne_nil (l : List Char) : splitOnSpace l ≠ [] := by
  cases l with
  | nil => simp [splitOnSpace]
  | cons c rest =>
    simp only [splitOnSpace]
    split
    · simp
    · split <;> simp

theorem mem_splitOnSpace {l p : List Char} (hp : p ∈ splitOnSpace l)
    {c : Char} (hc : c ∈ p) : c ∈ l := by
  induction l generalizing p with
  | nil =>
    simp [splitOnSpace] at hp
    subst hp
    exact absurd hc (List.not_mem_nil c)
  | cons x rest ih =>
    simp only [splitOnSpace] at hp
    by_cases hx : x = ' '
    · rw [if_pos hx] at hp
      rcases List.mem_cons.mp hp with h | h
      · subst h; exact absurd hc (List.not_mem_nil c)
      · exact List.mem_cons_of_mem _ (ih h hc)
    · rw [if_neg hx] at hp
      cases hsp : splitOnSpace rest with
      | nil => exact absurd hsp (splitOnSpace_ne_nil rest)
      | cons t ts =>
        rw [hsp] at hp
        rcases List.mem_cons.mp hp with h | h
        · subst h
          rcases List.mem_cons.mp hc with h2 | h2
          · subst h2; exact List.mem_cons_self _ _
          · have ht : t ∈ splitOnSpace rest := by rw [hsp]; exact List.mem_cons_self _ _
            exact List.mem_cons_of_mem _ (ih ht h2)
        · have hpp : p ∈ splitOnSpace rest := by rw [hsp]; exact List.mem_cons_of_mem _ h
          exact List.mem_cons_of_mem _ (ih hpp hc)

theorem pyUpper_tokens_upper (s : List Char) :
    ∀ p ∈ splitOnSpace (pyUpper s), ∀ c ∈ p, c.isAlpha = true → c ∈ ascii_uppercase := by
  intro p hp c hc halpha
  have hmem : c ∈ pyUpper s := mem_splitOnSpace hp hc
  obtain ⟨c0, _, hc0⟩ := List.mem_map.mp hmem
  rw [← hc0] at halpha ⊢
  exact toUpper_mem_of_alpha halpha

theorem except_map_ok_inv {α β : Type} (f : α → β) (e : Except String α) (b : β)
    (h : e.map f = .ok b) : ∃ a, e = .ok a ∧ b = f a := by
  cases e with
  | error err => simp [Except.map] at h
  | ok a =>
    refine ⟨a, rfl, ?_⟩
    simp only [Except.map] at h
    exact (Except.ok.inj h).symm

theorem buildPlugboard_ok_core (s : List Char) (d : Dict) (hok : buildPlugboard s = .ok d) :
    ∃ d0, d = fillSelf d0 ∧
      (∀ c, (dictFind d0 c).isSome = claimedIn (splitOnSpace (pyUpper s)) c ∨
        (dictFind d0 c = none ∧ s = [])) ∧
      (∀ k v, dictFind d0 k = some v → dictFind d0 v = some k) ∧
      (∀ k v, dictFind d0 k = some v → k ∈ ascii_uppercase ∧ v ∈ ascii_uppercase) := by
  unfold buildPlugboard at hok
  dsimp only [] at hok
  obtain ⟨d0, hif, hd⟩ := except_map_ok_inv _ _ _ hok
  by_cases hs : (pyUpper s).length > 0
  · rw [if_pos hs] at hif
    obtain ⟨p1, p2, p3⟩ := addPlugs_ok_invariants (splitOnSpace (pyUpper s)) [] d0 []
      (pyUpper_tokens_upper s) (fun _ => rfl)
      (fun k v h => Option.noConfusion h)
      (fun k v h => Option.noConfusion h) hif
    refine ⟨d0, hd, ?_, p2, p3⟩
    intro c
    exact Or.inl (by simpa using p1 c)
  · rw [if_neg hs] at hif
    have hd0 : d0 = [] := (Except.ok.inj hif).symm
    subst hd0
    refine ⟨[], hd, ?_, fun k v h => Option.noConfusion h,
      fun k v h => Option.noConfusion h⟩
    intro c
    refine Or.inr ⟨rfl, ?_⟩
    simp only [pyUpper, List.length_map, gt_iff_lt, Nat.not_lt, Nat.le_zero,
      List.length_eq_zero] at hs
    exact hs

theorem buildPlugboard_ok (s : List Char) (d : Dict) (hok : buildPlugboard s = .ok d) :
    (∀ L ∈ ascii_uppercase,
      ∃ v, dictFind d L = some v ∧ v ∈ ascii_uppercase ∧ dictFind d v = some L) ∧
    (∀ k v, dictFind d k = some v → k ∈ ascii_uppercase ∧ v ∈ ascii_uppercase) ∧
    (∀ L ∈ ascii_uppercase, claimedIn (splitOnSpace (pyUpper s)) L = false →
      dictFind d L = some L) := by
  obtain ⟨d0, hd, p1, p2, p3⟩ := buildPlugboard_ok_core s d hok
  clear hok
  rw [hd]
  refine ⟨?_, ?_, ?_⟩
  · intro L hL
    cases hfd : dictFind d0 L with
    | some v =>
      have hv := p3 L v hfd
      have hsym := p2 L v hfd
      have hne1 : ¬(L ∈ ascii_uppercase ∧ dictFind d0 L = none) := by
        rintro ⟨_, h⟩
        rw [hfd] at h
        exact Option.some_ne_none _ h
      have hne2 : ¬(v ∈ ascii_uppercase ∧ dictFind d0 v = none) := by
        rintro ⟨_, h⟩
        rw [hsym] at h
        exact Option.some_ne_none _ h
      refine ⟨v, ?_, hv.2, ?_⟩
      · rw [dictFind_fillSelf, if_neg hne1, hfd]
      · rw [dictFind_fillSelf, if_neg hne2, hsym]
    | none =>
      refine ⟨L, ?_, hL, ?_⟩ <;>
        rw [dictFind_fillSelf, if_pos ⟨hL, hfd⟩]
  · intro k v hkv
    rw [dictFind_fillSelf] at hkv
    by_cases hcond : k ∈ ascii_uppercase ∧ dictFind d0 k = none
    · rw [if_pos hcond] at hkv
      have hkvv : k = v := Option.some.inj hkv
      exact ⟨hcond.1, hkvv ▸ hcond.1⟩
    · rw [if_neg hcond] at hkv
      exact p3 k v hkv
  · intro L hL hclaim
    have hnone : dictFind d0 L = none := by
      rcases p1 L with h | h
      · rw [hclaim] at h
        cases hfd : dictFind d0 L
        · rfl
        · rw [hfd] at h; simp at h
      · exact h.1
    rw [dictFind_fillSelf, if_pos ⟨hL, hnone⟩]

/-- C7: plugboard construction fails with a configuration error iff the
non-empty specification has a token of length ≠ 2, a token with
non-alphabetic content, or a token reusing a letter of an earlier token
(`specHasBad`, stated on the raw token list of the uppercased spec); and
for a given token the checks apply in source order: length first
(`"AB ABC"`, whose second token is too long *and* reuses letters, reports
the length error), then duplicate, then alphabetic content (`"AB A1"`,
whose second token reuses `A` *and* is non-alphabetic, reports the
duplicate error). -/
theorem C7_plugboard_error_conditions :
    (∀ s : List Char, isErr (buildPlugboard s) =
        (!s.isEmpty && specHasBad [] (splitOnSpace (pyUpper s)))) ∧
    buildPlugboard ['A','B',' ','A','B','C'] = .error plugLenErr ∧
    buildPlugboard ['A','B',' ','A','1'] = .error (plugDupErr ['A','1']) ∧
    plugLenErr ≠ plugDupErr ['A','B','C'] ∧
    plugDupErr ['A','1'] ≠ plugAlphaErr ['A','1'] := by
  refine ⟨buildPlugboard_isErr, rfl, rfl, by decide, by decide⟩

/-- C6: every accepted plugboard maps each of the 26 letters to exactly
one letter which is again a letter, the mapping is an involution
(the partner of the partner is the original), every letter not claimed by
a token maps to itself, and the specification `"AB CD"` yields A↔B, C↔D
with all other letters fixed. -/
theorem C6_plugboard_involution :
    (∀ s d, buildPlugboard s = .ok d →
      (∀ L ∈ ascii_uppercase, ∃ v, dictFind d L = some v ∧ v ∈ ascii_uppercase ∧
        dictFind d v = some L) ∧
      (∀ L ∈ ascii_uppercase, claimedIn (splitOnSpace (pyUpper s)) L = false →
        dictFind d L = some L)) ∧
    (buildPlugboard ['A','B',' ','C','D'] = .ok plugboardABCD ∧
      dictFind plugboardABCD 'A' = some 'B' ∧ dictFind plugboardABCD 'B' = some 'A' ∧
      dictFind plugboardABCD 'C' = some 'D' ∧ dictFind plugboardABCD 'D' = some 'C' ∧
      ∀ L ∈ ascii_uppercase, L ∉ (['A','B','C','D'] : List Char) →
        dictFind plugboardABCD L = some L) := by
  constructor
  · intro s d hok
    obtain ⟨t1, _, t3⟩ := buildPlugboard_ok s d hok
    exact ⟨t1, t3⟩
  · exact ⟨rfl, rfl, rfl, rfl, rfl, by decide⟩

/-- Witness for C6: the `"AB CD"` plugboard, looked up at the unclaimed
letter `E`. -/
theorem C6_witness :
    (∃ v, dictFind plugboardABCD 'E' = some v ∧ v ∈ ascii_uppercase ∧
      dictFind plugboardABCD v = some 'E') ∧
    dictFind plugboardABCD 'E' = some 'E' :=
  ⟨(C6_plugboard_involution.1 ['A','B',' ','C','D'] plugboardABCD rfl).1 'E' (by decide),
   (C6_plugboard_involution.1 ['A','B',' ','C','D'] plugboardABCD rfl).2 'E' (by decide)
     (by decide)⟩

theorem ntl_eq_Q_iff : ∀ ρ, ρ < 27 → 1 ≤ ρ → (number_to_letter ρ = 'Q' ↔ ρ = 17) := by
  decide

theorem dictFind_mem {d : Dict} {k v : Char} (h : dictFind d k = some v) : (k, v) ∈ d := by
  induction d with
  | nil => exact Option.noConfusion h
  | cons e rest ih =>
    obtain ⟨a, b⟩ := e
    simp only [dictFind] at h
    by_cases hak : a = k
    · rw [if_pos hak] at h
      have hbv : b = v := Option.some.inj h
      subst hak
      subst hbv
      exact List.mem_cons_self _ _
    · rw [if_neg hak] at h
      exact List.mem_cons_of_mem _ (ih h)

theorem stepRotors_rotor1 (m : EnigmaMachine) :
    m.stepRotors.rotor1 = m.rotor1.rotate := by
  by_cases h : number_to_letter m.rotor1.rotation = 'Q' <;>
    simp [EnigmaMachine.stepRotors, h]

theorem stepRotors_rotor2 (m : EnigmaMachine) :
    m.stepRotors.rotor2 =
      if number_to_letter m.rotor1.rotation = 'Q' then m.rotor2.rotate else m.rotor2 := by
  by_cases h : number_to_letter m.rotor1.rotation = 'Q' <;>
    simp [EnigmaMachine.stepRotors, h]

theorem stepRotors_plugboard (m : EnigmaMachine) :
    m.stepRotors.plugboard = m.plugboard := by
  by_cases h : number_to_letter m.rotor1.rotation = 'Q' <;>
    simp [EnigmaMachine.stepRotors, h]

theorem stepRotors_reflector (m : EnigmaMachine) :
    m.stepRotors.reflector = m.reflector := by
  by_cases h : number_to_letter m.rotor1.rotation = 'Q' <;>
    simp [EnigmaMachine.stepRotors, h]

theorem stepRotors_wellformed (m : EnigmaMachine) (h : m.Wellformed) :
    m.stepRotors.Wellformed := by
  obtain ⟨h1, h2, h3, h4, h5, h6, h7, h8, h9⟩ := h
  have hr1 := stepRotors_rotor1 m
  have hr2 := stepRotors_rotor2 m
  have hpb := stepRotors_plugboard m
  have hrf := stepRotors_reflector m
  refine ⟨?_, ?_, ?_, ?_, ?_, ?_, ?_, ?_, ?_⟩
  · rw [hr1]; simp only [Rotor.rotate]; omega
  · rw [hr2]; split
    · simp only [Rotor.rotate]; omega
    · exact h2
  · rw [hr1]; exact h3
  · rw [hr2]; split
    · exact h4
    · exact h4
  · rw [hr1]; exact h5
  · rw [hr2]; split
    · exact h6
    · exact h6
  · rw [hrf]; exact h7
  · rw [hpb]; exact h8
  · rw [hpb]; exact h9

theorem reflector_total : ∀ L ∈ ascii_uppercase,
    (dictFind reflectorDict L).isSome = true ∧
    (dictFind reflectorDict L).getD 'A' ∈ ascii_uppercase ∧
    dictFind reflectorDict ((dictFind reflectorDict L).getD 'A') = some L := by
  decide

theorem total_exists {d : Dict} {L : Char}
    (h : (dictFind d L).isSome = true ∧ (dictFind d L).getD 'A' ∈ ascii_uppercase ∧
      dictFind d ((dictFind d L).getD 'A') = some L) :
    ∃ v, dictFind d L = some v ∧ v ∈ ascii_uppercase ∧ dictFind d v = some L := by
  obtain ⟨hs, hmem, hsym⟩ := h
  cases hfd : dictFind d L with
  | none => rw [hfd] at hs; simp at hs
  | some v =>
    rw [hfd] at hmem hsym
    exact ⟨v, rfl, by simpa using hmem, by simpa using hsym⟩

theorem pressKey_spec (m : EnigmaMachine) (hWF : m.Wellformed) {c : Char}
    (hc : c ∈ ascii_uppercase) :
    ∃ l1 l4 d,
      dictFind m.plugboard c = some l1 ∧ l1 ∈ ascii_uppercase ∧
      dictFind m.reflector
        (m.rotor2.encrypt_forwards (m.rotor1.encrypt_forwards l1)) = some l4 ∧
      dictFind m.plugboard
        (m.rotor1.encrypt_backwards (m.rotor2.encrypt_backwards l4)) = some d ∧
      m.pressKey c = some d ∧ d ∈ ascii_uppercase ∧
      m.pressKey d = some c := by
  obtain ⟨r1, r2, pb, ini, refl⟩ := m
  obtain ⟨rot1, map1, ring1⟩ := r1
  obtain ⟨rot2, map2, ring2⟩ := r2
  obtain ⟨h1, h2, h3, h4, h5, h6, h7, h8, h9⟩ := hWF
  dsimp only at h1 h2 h3 h4 h5 h6 h7 h8 h9
  subst h5; subst h6; subst h7
  simp only [EnigmaMachine.pressKey]
  obtain ⟨l1, hfl1, hl1, hsym1⟩ := total_exists (h8 c hc)
  set l2 := (⟨rot1, wiring1, ring1⟩ : Rotor).encrypt_forwards l1 with hl2
  have hl2m : l2 ∈ ascii_uppercase := rotor_forwards_mem _ wiring1_mem rot1 ring1 l1
  set l3 := (⟨rot2, wiring2, ring2⟩ : Rotor).encrypt_forwards l2 with hl3
  have hl3m : l3 ∈ ascii_uppercase := rotor_forwards_mem _ wiring2_mem rot2 ring2 l2
  obtain ⟨l4, hfl4, hl4, hsym4⟩ := total_exists (reflector_total l3 hl3m)
  set l5 := (⟨rot2, wiring2, ring2⟩ : Rotor).encrypt_backwards l4 with hl5
  have hl5m : l5 ∈ ascii_uppercase := rotor_backwards_mem _ rot2 ring2 l4
  set l6 := (⟨rot1, wiring1, ring1⟩ : Rotor).encrypt_backwards l5 with hl6
  have hl6m : l6 ∈ ascii_uppercase := rotor_backwards_mem _ rot1 ring1 l5
  obtain ⟨d, hfl6, hdm, hsym6⟩ := total_exists (h8 l6 hl6m)
  refine ⟨l1, l4, d, hfl1, hl1, hfl4, hfl6, ?_, hdm, ?_⟩
  · rw [hfl1]
    simp only [Option.some_bind]
    rw [← hl2, ← hl3, hfl4]
    simp only [Option.some_bind]
    rw [← hl5, ← hl6, hfl6]
  · rw [hsym6]
    simp only [Option.some_bind]
    have e1 : (⟨rot1, wiring1, ring1⟩ : Rotor).encrypt_forwards l6 = l5 := by
      rw [hl6]
      exact rotor_fb_aux _ wiring1_get_idx rot1 ring1 h1.1 h3.1 hl5m
    have e2 : (⟨rot2, wiring2, ring2⟩ : Rotor).encrypt_forwards l5 = l4 := by
      rw [hl5]
      exact rotor_fb_aux _ wiring2_get_idx rot2 ring2 h2.1 h4.1 hl4
    rw [e1, e2, hsym4]
    simp only [Option.some_bind]
    have e3 : (⟨rot2, wiring2, ring2⟩ : Rotor).encrypt_backwards l3 = l2 := by
      rw [hl3]
      exact rotor_bf_aux _ wiring2_idx_get rot2 ring2 h2.1 h4.1 hl2m
    have e4 : (⟨rot1, wiring1, ring1⟩ : Rotor).encrypt_backwards l2 = l1 := by
      rw [hl2]
      exact rotor_bf_aux _ wiring1_idx_get rot1 ring1 h1.1 h3.1 hl1
    rw [e3, e4, hsym1]

theorem encryptGo_encLetters (msg : List Char) (hmsg : ∀ c ∈ msg, c.isAlpha = true) :
    ∀ (m : EnigmaMachine) (ct : List Char) (lc : Nat),
      match encLetters m msg with
      | some (m', outs) => m.encryptGo ct lc msg = (m', .ok (ct ++ addGrouping lc outs))
      | none => isErr (m.encryptGo ct lc msg).2 = true := by
  induction msg with
  | nil =>
    intro m ct lc
    simp [encLetters, EnigmaMachine.encryptGo, addGrouping]
  | cons c rest ih =>
    intro m ct lc
    have hc : c.isAlpha = true := hmsg c (List.mem_cons_self _ _)
    have hrest : ∀ x ∈ rest, x.isAlpha = true :=
      fun x hx => hmsg x (List.mem_cons_of_mem _ hx)
    simp only [encLetters]
    cases hpk : (m.stepRotors).pressKey c with
    | none =>
      simp only [EnigmaMachine.encryptGo, hc, if_pos rfl, hpk]
      rfl
    | some d =>
      have := ih hrest m.stepRotors
        (ct ++ [d] ++ (if (lc + 1) % 5 = 0 then [' '] else [])) ((lc + 1) % 5)
      cases henc : encLetters m.stepRotors rest with
      | none =>
        rw [henc] at this
        simp only [EnigmaMachine.encryptGo, hc, if_pos rfl, hpk]
        exact this
      | some p =>
        obtain ⟨m', ds⟩ := p
        rw [henc] at this
        simp only [EnigmaMachine.encryptGo, hc, if_pos rfl, hpk]
        rw [this]
        simp only [addGrouping]
        simp

theorem encLetters_ok (msg : List Char) :
    ∀ (m : EnigmaMachine), m.Wellformed → (∀ c ∈ msg, c ∈ ascii_uppercase) →
    ∃ m' outs, encLetters m msg = some (m', outs) ∧
      (∀ c ∈ outs, c ∈ ascii_uppercase) ∧ outs.length = msg.length ∧
      m'.Wellformed ∧ m'.plugboard = m.plugboard ∧
      m'.rotor1.rotation = (m.rotor1.rotation - 1 + msg.length) % 26 + 1 ∧
      m'.rotor2.rotation =
        (m.rotor2.rotation - 1 + rotor2Steps m.rotor1.rotation msg.length) % 26 + 1 := by
  induction msg with
  | nil =>
    intro m hWF _
    refine ⟨m, [], rfl, by simp, rfl, hWF, rfl, ?_, ?_⟩
    · have := hWF.1
      simp only [rotor2Steps, List.length_nil]
      omega
    · have := hWF.2.1
      simp only [rotor2Steps, List.length_nil]
      omega
  | cons c rest ih =>
    intro m hWF hmsg
    have hc : c ∈ ascii_uppercase := hmsg c (List.mem_cons_self _ _)
    have hrest : ∀ x ∈ rest, x ∈ ascii_uppercase :=
      fun x hx => hmsg x (List.mem_cons_of_mem _ hx)
    have hWF1 := stepRotors_wellformed m hWF
    obtain ⟨_, _, d, _, _, _, _, hpk, _, _⟩ := pressKey_spec m.stepRotors hWF1 hc
    obtain ⟨m', outs, henc, houts, hlen, hWF', hpb, hrot1, hrot2⟩ := ih m.stepRotors hWF1 hrest
    refine ⟨m', d :: outs, ?_, ?_, by simp [hlen], hWF', ?_, ?_, ?_⟩
    · simp only [encLetters, hpk, henc]
    · intro x hx
      rcases List.mem_cons.mp hx with h | h
      · subst h
        obtain ⟨_, _, d2, _, _, _, _, hpk2, hdm2, _⟩ := pressKey_spec m.stepRotors hWF1 hc
        rw [hpk] at hpk2
        exact (Option.some.inj hpk2) ▸ hdm2
      · exact houts x h
    · rw [hpb, stepRotors_plugboard]
    · rw [hrot1, stepRotors_rotor1]
      have h1 := hWF.1
      simp only [Rotor.rotate, List.length_cons]
      omega
    · rw [hrot2, stepRotors_rotor2, stepRotors_rotor1]
      have h1 := hWF.1
      have h2 := hWF.2.1
      have hq := ntl_eq_Q_iff m.rotor1.rotation (by omega) (by omega)
      simp only [List.length_cons, rotor2Steps, Rotor.rotate]
      by_cases h17 : m.rotor1.rotation = 17
      · rw [if_pos (hq.mpr h17), if_pos h17]
        simp only [Rotor.rotate]
        rw [h17]
        omega
      · rw [if_neg (fun hQ => h17 (hq.mp hQ)), if_neg h17]
        omega

theorem pressKey_inv (m : EnigmaMachine) (hWF : m.Wellformed) {c d : Char}
    (h : m.pressKey c = some d) : m.pressKey d = some c := by
  have hcm : c ∈ ascii_uppercase := by
    obtain ⟨l1, hfl1⟩ : ∃ l1, dictFind m.plugboard c = some l1 := by
      cases hfd : dictFind m.plugboard c with
      | none =>
        exfalso
        simp only [EnigmaMachine.pressKey, hfd, Option.none_bind] at h
        exact Option.noConfusion h
      | some l1 => exact ⟨l1, rfl⟩
    exact (hWF.2.2.2.2.2.2.2.2 (c, l1) (dictFind_mem hfl1))
  obtain ⟨_, _, d2, _, _, _, _, hpk, _, hinv⟩ := pressKey_spec m hWF hcm
  rw [h] at hpk
  have hd : d = d2 := Option.some.inj hpk
  rw [hd]
  exact hinv

theorem encLetters_inv (msg : List Char) :
    ∀ (m m' : EnigmaMachine) (outs : List Char), m.Wellformed →
      encLetters m msg = some (m', outs) → encLetters m outs = some (m', msg) := by
  induction msg with
  | nil =>
    intro m m' outs hWF h
    simp only [encLetters] at h
    cases h
    rfl
  | cons c rest ih =>
    intro m m' outs hWF h
    simp only [encLetters] at h
    cases hpk : (m.stepRotors).pressKey c with
    | none => rw [hpk] at h; exact Option.noConfusion h
    | some d =>
      rw [hpk] at h
      cases henc : encLetters m.stepRotors rest with
      | none =>
        rw [henc] at h
        exact Option.noConfusion h
      | some p =>
        obtain ⟨m'', ds⟩ := p
        rw [henc] at h
        dsimp only at h
        cases h
        have hWF1 := stepRotors_wellformed m hWF
        have hpk2 : (m.stepRotors).pressKey d = some c := pressKey_inv _ hWF1 hpk
        have hrec := ih m.stepRotors _ ds hWF1 henc
        simp only [encLetters, hpk2, hrec]

theorem encryptGo_filter (msg : List Char) :
    ∀ (m : EnigmaMachine) (ct : List Char) (lc : Nat),
      m.encryptGo ct lc msg = m.encryptGo ct lc (msg.filter Char.isAlpha) := by
  induction msg with
  | nil => intro m ct lc; rfl
  | cons c rest ih =>
    intro m ct lc
    by_cases hc : c.isAlpha = true
    · rw [List.filter_cons_of_pos hc]
      simp only [EnigmaMachine.encryptGo, hc, if_pos rfl]
      cases hpk : (m.stepRotors).pressKey c with
      | none => rfl
      | some d => exact ih _ _ _
    · rw [List.filter_cons_of_neg (by simpa using hc)]
      simp only [EnigmaMachine.encryptGo, hc]
      exact ih _ _ _

theorem encryptGo_append (xs ys : List Char) :
    ∀ (m : EnigmaMachine) (ct : List Char) (lc : Nat), lc < 5 →
      m.encryptGo ct lc (xs ++ ys) =
        match m.encryptGo ct lc xs with
        | (m', .ok ct') => m'.encryptGo ct' ((lc + (xs.filter Char.isAlpha).length) % 5) ys
        | (m', .error e) => (m', .error e) := by
  induction xs with
  | nil =>
    intro m ct lc hlc
    have h0 : (lc + (List.filter Char.isAlpha []).length) % 5 = lc := by
      simp [Nat.mod_eq_of_lt hlc]
    simp only [List.nil_append]
    rw [show m.encryptGo ct lc [] = (m, .ok ct) from rfl, h0]
  | cons c rest ih =>
    intro m ct lc hlc
    by_cases hc : c.isAlpha = true
    · have hfc : (c :: rest).filter Char.isAlpha = c :: rest.filter Char.isAlpha :=
        List.filter_cons_of_pos hc
      rw [List.cons_append, hfc]
      simp only [EnigmaMachine.encryptGo, hc, eq_self_iff_true, if_true]
      cases hpk : (m.stepRotors).pressKey c with
      | none => rfl
      | some d =>
        dsimp only
        rw [ih _ _ _ (by omega)]
        have harith : ((lc + 1) % 5 + (rest.filter Char.isAlpha).length) % 5
            = (lc + (c :: rest.filter Char.isAlpha).length) % 5 := by
          simp only [List.length_cons]
          omega
        rw [harith]
    · rw [List.filter_cons_of_neg (by simpa using hc), List.cons_append]
      simp only [EnigmaMachine.encryptGo, hc]
      exact ih _ _ _ hlc

theorem addGrouping_filter (l : List Char) :
    ∀ lc, (∀ c ∈ l, c.isAlpha = true) → (addGrouping lc l).filter Char.isAlpha = l := by
  induction l with
  | nil => intro lc _; rfl
  | cons c rest ih =>
    intro lc hl
    have hc := hl c (List.mem_cons_self _ _)
    simp only [addGrouping]
    rw [List.filter_cons_of_pos hc]
    congr 1
    by_cases h5 : (lc + 1) % 5 = 0
    · rw [if_pos h5, List.singleton_append, List.filter_cons_of_neg (by decide)]
      exact ih _ (fun x hx => hl x (List.mem_cons_of_mem _ hx))
    · rw [if_neg h5, List.nil_append]
      exact ih _ (fun x hx => hl x (List.mem_cons_of_mem _ hx))

theorem addGrouping_ne_nil {lc : Nat} {l : List Char} (h : l ≠ []) :
    addGrouping lc l ≠ [] := by
  cases l with
  | nil => exact absurd rfl h
  | cons c rest => simp [addGrouping]

theorem getLast?_cons_of_ne_nil {α : Type} (c : α) {xs : List α} (h : xs ≠ []) :
    (c :: xs).getLast? = xs.getLast? := by
  cases xs with
  | nil => exact absurd rfl h
  | cons y ys => exact List.getLast?_cons_cons

theorem getLast?_append_of_ne_nil {α : Type} (l1 : List α) {l2 : List α} (h : l2 ≠ []) :
    (l1 ++ l2).getLast? = l2.getLast? := by
  induction l1 with
  | nil => rfl
  | cons a l1' ih =>
    rw [List.cons_append, getLast?_cons_of_ne_nil a (by
      intro hcontra
      exact h (List.append_eq_nil.mp hcontra).2), ih]

theorem addGrouping_getLast (l : List Char) :
    ∀ lc, l ≠ [] →
      (addGrouping lc l).getLast? =
        if (lc + l.length) % 5 = 0 then some ' ' else l.getLast? := by
  induction l with
  | nil => intro lc h; exact absurd rfl h
  | cons c rest ih =>
    intro lc _
    simp only [addGrouping]
    cases hr : rest with
    | nil =>
      by_cases h5 : (lc + 1) % 5 = 0
      · rw [if_pos h5]
        simp only [addGrouping, List.length_cons, List.length_nil]
        rw [if_pos (by omega)]
        rfl
      · rw [if_neg h5]
        simp only [addGrouping, List.length_cons, List.length_nil]
        rw [if_neg (by omega)]
        rfl
    | cons c2 rest2 =>
      have hne : rest ≠ [] := by rw [hr]; simp
      rw [← hr]
      have hrec : addGrouping ((lc + 1) % 5) rest ≠ [] := addGrouping_ne_nil hne
      rw [getLast?_cons_of_ne_nil c (by
        intro hcontra
        exact hrec (List.append_eq_nil.mp hcontra).2)]
      rw [getLast?_append_of_ne_nil _ hrec]
      rw [ih ((lc + 1) % 5) hne]
      have harith : (((lc + 1) % 5) + rest.length) % 5 = (lc + (c :: rest).length) % 5 := by
        simp only [List.length_cons]
        omega
      rw [harith, getLast?_cons_of_ne_nil c hne]

theorem dictInsert_mem {d : Dict} {k v : Char} {e : Char × Char}
    (h : e ∈ dictInsert d k v) : e = (k, v) ∨ e ∈ d := by
  induction d with
  | nil => simpa [dictInsert] using h
  | cons a rest ih =>
    obtain ⟨a1, a2⟩ := a
    simp only [dictInsert] at h
    by_cases hak : a1 = k
    · rw [if_pos hak] at h
      rcases List.mem_cons.mp h with h | h
      · exact Or.inl h
      · exact Or.inr (List.mem_cons_of_mem _ h)
    · rw [if_neg hak] at h
      rcases List.mem_cons.mp h with h | h
      · exact Or.inr (h ▸ List.mem_cons_self _ _)
      · rcases ih h with h | h
        · exact Or.inl h
        · exact Or.inr (List.mem_cons_of_mem _ h)

theorem addPlugs_ok_entries (plugs : List (List Char)) :
    ∀ (d d' : Dict),
      (∀ p ∈ plugs, ∀ c ∈ p, c.isAlpha = true → c ∈ ascii_uppercase) →
      (∀ e ∈ d, e.1 ∈ ascii_uppercase ∧ e.2 ∈ ascii_uppercase) →
      addPlugs d plugs = .ok d' →
      ∀ e ∈ d', e.1 ∈ ascii_uppercase ∧ e.2 ∈ ascii_uppercase := by
  induction plugs with
  | nil =>
    intro d d' _ hent hok
    simp only [addPlugs] at hok
    cases hok
    exact hent
  | cons p rest ih =>
    intro d d' hup hent hok
    simp only [addPlugs] at hok
    by_cases hlen : p.length = 2
    · obtain ⟨a, b, hp⟩ := List.length_eq_two.mp hlen
      subst hp
      rw [if_neg (by simp)] at hok
      by_cases hdup : ((dictFind d ([a, b].getD 0 'A')).isSome
          || (dictFind d ([a, b].getD 1 'A')).isSome) = true
      · rw [if_pos hdup] at hok
        exact absurd hok (by simp)
      · rw [if_neg hdup] at hok
        by_cases halpha : [a, b].all Char.isAlpha = true
        · rw [if_neg (by simp [halpha])] at hok
          simp only [List.all_cons, List.all_nil, Bool.and_eq_true] at halpha
          have hax : a ∈ ascii_uppercase :=
            hup [a, b] (List.mem_cons_self _ _) a (by simp) halpha.1
          have hbx : b ∈ ascii_uppercase :=
            hup [a, b] (List.mem_cons_self _ _) b (by simp) halpha.2.1
          refine ih _ d' (fun q hq => hup q (List.mem_cons_of_mem _ hq)) ?_ hok
          intro e he
          rcases dictInsert_mem he with h | h
          · rw [h]; exact ⟨hbx, hax⟩
          · rcases dictInsert_mem h with h2 | h2
            · rw [h2]; exact ⟨hax, hbx⟩
            · exact hent e h2
        · have halpha2 : [a, b].all Char.isAlpha = false := by
            revert halpha
            cases ([a, b].all Char.isAlpha) <;> simp
          rw [if_pos (by simp [halpha2])] at hok
          exact absurd hok (by simp)
    · rw [if_pos (by simpa using hlen)] at hok
      exact absurd hok (by simp)

theorem fillLoop_entries (letters : List Char) :
    ∀ (d : Dict) (e : Char × Char),
      e ∈ letters.foldl
        (fun d letter => if (dictFind d letter).isSome then d else dictInsert d letter letter)
        d →
      e ∈ d ∨ (e.1 ∈ letters ∧ e.2 = e.1) := by
  induction letters with
  | nil => intro d e he; exact Or.inl he
  | cons l ls ih =>
    intro d e he
    simp only [List.foldl_cons] at he
    rcases ih _ e he with h | h
    · by_cases hl : (dictFind d l).isSome = true
      · rw [if_pos hl] at h
        exact Or.inl h
      · rw [if_neg hl] at h
        rcases dictInsert_mem h with h2 | h2
        · refine Or.inr ⟨?_, ?_⟩
          · rw [h2]; exact List.mem_cons_self _ _
          · rw [h2]
        · exact Or.inl h2
    · exact Or.inr ⟨List.mem_cons_of_mem _ h.1, h.2⟩

theorem buildPlugboard_ok_entries (s : List Char) (d : Dict)
    (hok : buildPlugboard s = .ok d) :
    ∀ e ∈ d, e.1 ∈ ascii_uppercase ∧ e.2 ∈ ascii_uppercase := by
  unfold buildPlugboard at hok
  dsimp only [] at hok
  obtain ⟨d0, hif, hd⟩ := except_map_ok_inv _ _ _ hok
  have hd0 : ∀ e ∈ d0, e.1 ∈ ascii_uppercase ∧ e.2 ∈ ascii_uppercase := by
    by_cases hs : (pyUpper s).length > 0
    · rw [if_pos hs] at hif
      exact addPlugs_ok_entries _ [] d0 (pyUpper_tokens_upper s)
        (fun e he => absurd he (List.not_mem_nil e)) hif
    · rw [if_neg hs] at hif
      have hnil : d0 = [] := (Except.ok.inj hif).symm
      rw [hnil]
      intro e he
      exact absurd he (List.not_mem_nil e)
  rw [hd]
  intro e he
  rcases fillLoop_entries ascii_uppercase d0 e he with h | h
  · exact hd0 e h
  · exact ⟨h.1, by rw [h.2]; exact h.1⟩

theorem rotor_mk_ok (rs W : List Char) (i : Char) (r : Rotor)
    (h : Rotor.mk? rs W i = .ok r) :
    r.mapping = W ∧ 1 ≤ r.rotation ∧ r.rotation ≤ 26 ∧
    1 ≤ r.ring_setting ∧ r.ring_setting ≤ 26 := by
  unfold Rotor.mk? at h
  by_cases hi : ascii_uppercase.contains i = true
  · rw [if_pos hi] at h
    dsimp only at h
    by_cases hd : pyIsDigit rs = true
    · rw [if_pos hd] at h
      by_cases hr : (parseDigits rs < 1 || parseDigits rs > 26) = true
      · rw [if_pos hr] at h
        exact absurd h (by simp)
      · rw [if_neg hr] at h
        cases h
        simp only [Bool.or_eq_true, decide_eq_true_eq, not_or, Nat.not_lt] at hr
        have hmem : i ∈ ascii_uppercase := by
          have := List.elem_iff.mp hi
          exact this
        have hb := ltn_bounds i hmem
        exact ⟨rfl, hb.1, hb.2, hr.1, hr.2⟩
    · rw [if_neg hd] at h
      exact absurd h (by simp)
  · rw [if_neg hi] at h
    exact absurd h (by simp)

theorem mk_ok_wellformed (rsStr pbs is : List Char) (m : EnigmaMachine)
    (h : EnigmaMachine.mk? rsStr pbs is = .ok m) : m.Wellformed := by
  unfold EnigmaMachine.mk? at h
  dsimp only at h
  cases h0 : (pyUpper is).get? 0 with
  | none => rw [h0] at h; exact absurd h (by simp)
  | some i0 =>
    rw [h0] at h
    dsimp only at h
    cases hr1 : Rotor.mk? ((splitOnSpace rsStr).getD 0 []) wiring1 i0 with
    | error e => rw [hr1] at h; exact absurd h (by simp)
    | ok rotor1 =>
      rw [hr1] at h
      dsimp only at h
      cases h1 : (splitOnSpace rsStr).get? 1 with
      | none => rw [h1] at h; exact absurd h (by simp)
      | some r1s =>
        rw [h1] at h
        dsimp only at h
        cases h2 : (pyUpper is).get? 1 with
        | none => rw [h2] at h; exact absurd h (by simp)
        | some i1 =>
          rw [h2] at h
          dsimp only at h
          cases hr2 : Rotor.mk? r1s wiring2 i1 with
          | error e => rw [hr2] at h; exact absurd h (by simp)
          | ok rotor2 =>
            rw [hr2] at h
            dsimp only at h
            obtain ⟨pb, hpb, hm⟩ := except_map_ok_inv _ _ _ h
            obtain ⟨hm1, hb1, hb2, hb3, hb4⟩ := rotor_mk_ok _ _ _ _ hr1
            obtain ⟨hm2, hc1, hc2, hc3, hc4⟩ := rotor_mk_ok _ _ _ _ hr2
            obtain ⟨t1, t2, _⟩ := buildPlugboard_ok pbs pb hpb
            have tent := buildPlugboard_ok_entries pbs pb hpb
            rw [hm]
            refine ⟨⟨hb1, hb2⟩, ⟨hc1, hc2⟩, ⟨hb3, hb4⟩, ⟨hc3, hc4⟩,
              hm1, hm2, rfl, ?_, ?_⟩
            · intro L hL
              obtain ⟨v, hv1, hv2, hv3⟩ := t1 L hL
              refine ⟨by rw [hv1]; rfl, ?_, ?_⟩
              · rw [hv1]
                simpa using hv2
              · rw [hv1]
                simpa using hv3
            · intro e he
              exact (tent e he).1

theorem mem_ascii_isAlpha : ∀ c ∈ ascii_uppercase, c.isAlpha = true := by
  decide

theorem mem_ascii_ne_space : ∀ c ∈ ascii_uppercase, c ≠ ' ' := by
  decide

theorem mem_lower_isAlpha : ∀ c ∈ ascii_lowercase, c.isAlpha = true := by
  decide

theorem mem_lower_not_upper : ∀ c ∈ ascii_lowercase, c ∉ ascii_uppercase := by
  decide

theorem rotor2Steps_26 : ∀ ρ, ρ < 27 → 1 ≤ ρ → rotor2Steps ρ 26 = 1 := by
  decide

/-- C4: `Encrypt` gives the same output and the same final machine state
as `Encrypt` on the message with all non-alphabetic characters removed:
such characters are dropped, step no rotor, and count for nothing. -/
theorem C4_nonalpha_dropped (m : EnigmaMachine) (msg : List Char) :
    m.Encrypt msg = m.Encrypt (msg.filter Char.isAlpha) :=
  encryptGo_filter msg m [] 0

theorem encLetters_success_upper (msg : List Char) :
    ∀ (m m' : EnigmaMachine) (outs : List Char), m.Wellformed →
      encLetters m msg = some (m', outs) →
      (∀ x ∈ msg, x ∈ ascii_uppercase) ∧ (∀ x ∈ outs, x ∈ ascii_uppercase) := by
  induction msg with
  | nil =>
    intro m m' outs _ h
    simp only [encLetters] at h
    cases h
    exact ⟨by simp, by simp⟩
  | cons c rest ih =>
    intro m m' outs hWF h
    simp only [encLetters] at h
    cases hpk : (m.stepRotors).pressKey c with
    | none => rw [hpk] at h; exact Option.noConfusion h
    | some d =>
      rw [hpk] at h
      cases henc : encLetters m.stepRotors rest with
      | none => rw [henc] at h; exact Option.noConfusion h
      | some p =>
        obtain ⟨m'', ds⟩ := p
        rw [henc] at h
        dsimp only at h
        cases h
        have hWF1 := stepRotors_wellformed m hWF
        have hcm : c ∈ ascii_uppercase := by
          obtain ⟨l1, hfl1⟩ : ∃ l1, dictFind (m.stepRotors).plugboard c = some l1 := by
            cases hfd : dictFind (m.stepRotors).plugboard c with
            | none =>
              exfalso
              simp only [EnigmaMachine.pressKey, hfd, Option.none_bind] at hpk
              exact Option.noConfusion hpk
            | some l1 => exact ⟨l1, rfl⟩
          exact hWF1.2.2.2.2.2.2.2.2 (c, l1) (dictFind_mem hfl1)
        have hdm : d ∈ ascii_uppercase := by
          obtain ⟨_, _, d2, _, _, _, _, hpk2, hdm2, _⟩ := pressKey_spec m.stepRotors hWF1 hcm
          rw [hpk] at hpk2
          exact (Option.some.inj hpk2) ▸ hdm2
        obtain ⟨hrest, houts⟩ := ih m.stepRotors _ ds hWF1 henc
        constructor
        · intro x hx
          rcases List.mem_cons.mp hx with hx | hx
          · exact hx ▸ hcm
          · exact hrest x hx
        · intro x hx
          rcases List.mem_cons.mp hx with hx | hx
          · exact hx ▸ hdm
          · exact houts x hx

/-- C3: for every alphabetic keystroke, rotor 2 steps iff rotor 1's
pre-step rotation reads `Q` (position 17), rotor 1 then steps exactly once,
and only after stepping is the character mapped plugboard → rotor1 forward
→ rotor2 forward → reflector → rotor2 backward → rotor1 backward →
plugboard and appended to the output; over a run of uppercase keystrokes
rotor 1 advances once per keystroke and rotor 2 advances `rotor2Steps`
times — exactly once per full 26-keystroke cycle of rotor 1, never more
than once per keystroke. -/
theorem C3_stepping_and_path :
    (∀ (m : EnigmaMachine), m.Wellformed → ∀ c ∈ ascii_uppercase,
      ∀ (ct : List Char) (lc : Nat),
      ∃ l1 l4 d,
        dictFind m.plugboard c = some l1 ∧
        dictFind m.reflector
          (m.stepRotors.rotor2.encrypt_forwards
            (m.stepRotors.rotor1.encrypt_forwards l1)) = some l4 ∧
        dictFind m.plugboard
          (m.stepRotors.rotor1.encrypt_backwards
            (m.stepRotors.rotor2.encrypt_backwards l4)) = some d ∧
        m.encryptGo ct lc [c] =
          (m.stepRotors, .ok (ct ++ [d] ++ (if (lc + 1) % 5 = 0 then [' '] else []))) ∧
        m.stepRotors.rotor1 = m.rotor1.rotate ∧
        m.stepRotors.rotor2 =
          (if m.rotor1.rotation = 17 then m.rotor2.rotate else m.rotor2) ∧
        (number_to_letter m.rotor1.rotation = 'Q' ↔ m.rotor1.rotation = 17)) ∧
    (∀ (m : EnigmaMachine), m.Wellformed → ∀ (msg : List Char),
      (∀ x ∈ msg, x ∈ ascii_uppercase) →
      ∃ m' s, m.Encrypt msg = (m', .ok s) ∧
        m'.rotor1.rotation = (m.rotor1.rotation - 1 + msg.length) % 26 + 1 ∧
        m'.rotor2.rotation =
          (m.rotor2.rotation - 1 + rotor2Steps m.rotor1.rotation msg.length) % 26 + 1) ∧
    (∀ ρ, 1 ≤ ρ → ρ ≤ 26 → ∀ k, rotor2Steps ρ (k + 26) = rotor2Steps ρ k + 1) := by
  refine ⟨?_, ?_, ?_⟩
  · intro m hWF c hc ct lc
    have hWF1 := stepRotors_wellformed m hWF
    obtain ⟨l1, l4, d, hfl1, _, hfl4, hfl6, hpk, hdm, _⟩ := pressKey_spec m.stepRotors hWF1 hc
    rw [stepRotors_plugboard] at hfl1 hfl6
    rw [stepRotors_reflector] at hfl4
    refine ⟨l1, l4, d, hfl1, hfl4, hfl6, ?_, stepRotors_rotor1 m, ?_, ?_⟩
    · have hca : c.isAlpha = true := mem_ascii_isAlpha c hc
      simp only [EnigmaMachine.encryptGo, hca, eq_self_iff_true, if_true, hpk]
    · rw [stepRotors_rotor2]
      have hq := ntl_eq_Q_iff m.rotor1.rotation (by have := hWF.1; omega) hWF.1.1
      by_cases h17 : m.rotor1.rotation = 17
      · rw [if_pos (hq.mpr h17), if_pos h17]
      · rw [if_neg (fun hQ => h17 (hq.mp hQ)), if_neg h17]
    · exact ntl_eq_Q_iff m.rotor1.rotation (by have := hWF.1; omega) hWF.1.1
  · intro m hWF msg hmsg
    obtain ⟨m', outs, henc, _, _, _, _, hrot1, hrot2⟩ := encLetters_ok msg m hWF hmsg
    have hsim := encryptGo_encLetters msg (fun c hc => mem_ascii_isAlpha c (hmsg c hc)) m [] 0
    rw [henc] at hsim
    exact ⟨m', addGrouping 0 outs, hsim, hrot1, hrot2⟩
  · intro ρ h1 h2 k
    induction k generalizing ρ with
    | zero => simpa using rotor2Steps_26 ρ (by omega) h1
    | succ k ih =>
      have hstep : k + 1 + 26 = (k + 26) + 1 := by omega
      have hunfold : ∀ (σ n : Nat), rotor2Steps σ (n + 1)
          = (if σ = 17 then 1 else 0) + rotor2Steps (σ % 26 + 1) n := fun σ n => rfl
      rw [hstep, hunfold ρ (k + 26), ih (ρ % 26 + 1) (by omega) (by omega), hunfold ρ k]
      omega

/-- C5: the output is the emitted letters with one space after every 5th
emitted letter (`addGrouping`, counted over emitted letters only), so it
ends in a space iff the letter count is a non-zero multiple of 5; a
12-letter input yields a 14-character output whose only spaces sit right
after the 5th and 10th letters (indices 5 and 11). -/
theorem C5_grouping :
    (∀ (m : EnigmaMachine), m.Wellformed → ∀ (msg : List Char),
      (∀ x ∈ msg, x ∈ ascii_uppercase) →
      ∃ m' letters, m.Encrypt msg = (m', .ok (addGrouping 0 letters)) ∧
        letters.length = msg.length ∧ (∀ x ∈ letters, x ∈ ascii_uppercase) ∧
        (addGrouping 0 letters).filter Char.isAlpha = letters ∧
        ((addGrouping 0 letters).getLast? = some ' ' ↔
          msg.length ≠ 0 ∧ msg.length % 5 = 0)) ∧
    ((machineAA.Encrypt msg12).2 = .ok out12 ∧ out12.length = 14 ∧
      ∀ i < 14, (out12.getD i 'A' = ' ' ↔ (i = 5 ∨ i = 11))) := by
  constructor
  · intro m hWF msg hmsg
    obtain ⟨m', outs, henc, houts, hlen, _, _, _, _⟩ := encLetters_ok msg m hWF hmsg
    have hsim := encryptGo_encLetters msg (fun c hc => mem_ascii_isAlpha c (hmsg c hc)) m [] 0
    rw [henc] at hsim
    refine ⟨m', outs, hsim, hlen, houts, ?_, ?_⟩
    · exact addGrouping_filter outs 0 (fun x hx => mem_ascii_isAlpha x (houts x hx))
    · rw [← hlen]
      cases houtnil : outs with
      | nil => simp [addGrouping]
      | cons o os =>
        rw [← houtnil]
        have hne : outs ≠ [] := by rw [houtnil]; simp
        rw [addGrouping_getLast outs 0 hne]
        constructor
        · intro hsp
          by_cases h5 : (0 + outs.length) % 5 = 0
          · refine ⟨by simpa using hne, by omega⟩
          · rw [if_neg h5] at hsp
            exfalso
            rw [List.getLast?_eq_getLast_of_ne_nil hne] at hsp
            have hmem := List.getLast_mem hne
            have := mem_ascii_ne_space _ (houts _ hmem)
            exact this (Option.some.inj hsp)
        · rintro ⟨_, h5⟩
          rw [if_pos (by omega)]
  · refine ⟨rfl, by decide, by decide⟩

/-- C10: a lowercase letter passes the `isalpha` filter but has no entry
in the uppercase-keyed plugboard, so `Encrypt` aborts with the lookup
error (`KeyError`) when it reaches it — after having already stepped
rotor 1 for every preceding letter and for the offending character
itself — instead of dropping or encrypting it. -/
theorem C10_lowercase_KeyError (m : EnigmaMachine) (hWF : m.Wellformed)
    (pre : List Char) (hpre : ∀ x ∈ pre, x ∈ ascii_uppercase)
    (c : Char) (hc : c ∈ ascii_lowercase) (rest : List Char) :
    c.isAlpha = true ∧
    dictFind m.plugboard c = none ∧
    ∃ m1, m.Encrypt (pre ++ c :: rest) = (m1, .error "KeyError") ∧
      m1.rotor1.rotation = (m.rotor1.rotation - 1 + (pre.length + 1)) % 26 + 1 := by
  have hca : c.isAlpha = true := mem_lower_isAlpha c hc
  have hnone : dictFind m.plugboard c = none := by
    cases hfd : dictFind m.plugboard c with
    | none => rfl
    | some v =>
      exfalso
      exact mem_lower_not_upper c hc
        (hWF.2.2.2.2.2.2.2.2 (c, v) (dictFind_mem hfd))
  refine ⟨hca, hnone, ?_⟩
  obtain ⟨mp, outs, henc, _, _, hWFp, hpbp, hrot1p, _⟩ := encLetters_ok pre m hWF hpre
  have hsim := encryptGo_encLetters pre (fun x hx => mem_ascii_isAlpha x (hpre x hx)) m [] 0
  rw [henc] at hsim
  unfold EnigmaMachine.Encrypt
  rw [encryptGo_append pre (c :: rest) m [] 0 (by omega), hsim]
  dsimp only
  have hnone2 : dictFind mp.stepRotors.plugboard c = none := by
    rw [stepRotors_plugboard, hpbp]
    exact hnone
  have hpknone : mp.stepRotors.pressKey c = none := by
    simp only [EnigmaMachine.pressKey, hnone2, Option.none_bind]
  simp only [EnigmaMachine.encryptGo, hca, eq_self_iff_true, if_true, hpknone]
  refine ⟨mp.stepRotors, rfl, ?_⟩
  rw [stepRotors_rotor1]
  simp only [Rotor.rotate]
  rw [hrot1p]
  have := hWF.1
  omega

/-- C1: for every configuration accepted by the constructor and every
message whose encryption succeeds, encrypting the resulting ciphertext on
a freshly constructed machine with the identical configuration (the same
constructor output) reproduces the message's alphabetic characters
exactly, once grouping spaces and non-alphabetic characters are dropped
from the comparison. -/
theorem C1_encrypt_symmetry (rs pbs is msg ct : List Char) (m m1 : EnigmaMachine)
    (hmk : EnigmaMachine.mk? rs pbs is = .ok m)
    (henc1 : m.Encrypt msg = (m1, .ok ct)) :
    ∃ pt, (m.Encrypt ct).2 = .ok pt ∧
      pt.filter Char.isAlpha = msg.filter Char.isAlpha := by
  have hWF := mk_ok_wellformed rs pbs is m hmk
  have hfil1 : m.Encrypt msg = m.Encrypt (msg.filter Char.isAlpha) :=
    encryptGo_filter msg m [] 0
  set msgA := msg.filter Char.isAlpha with hmsgA
  have hmsgAalpha : ∀ x ∈ msgA, x.isAlpha = true := by
    intro x hx
    exact List.of_mem_filter hx
  have hsim := encryptGo_encLetters msgA hmsgAalpha m [] 0
  cases hencA : encLetters m msgA with
  | none =>
    rw [hencA] at hsim
    rw [hfil1] at henc1
    unfold EnigmaMachine.Encrypt at henc1
    rw [henc1] at hsim
    simp [isErr] at hsim
  | some p =>
    obtain ⟨m', outs⟩ := p
    rw [hencA] at hsim
    dsimp only at hsim
    rw [hfil1] at henc1
    unfold EnigmaMachine.Encrypt at henc1
    rw [henc1] at hsim
    injection hsim with hma hctb
    have hm' : m' = m1 := hma.symm
    have hct : ct = addGrouping 0 outs := by
      simpa using (Except.ok.inj hctb)
    obtain ⟨hupA, hupouts⟩ := encLetters_success_upper msgA m m' outs hWF hencA
    have hinv := encLetters_inv msgA m m' outs hWF hencA
    have hfil2 : m.Encrypt ct = m.Encrypt (ct.filter Char.isAlpha) :=
      encryptGo_filter ct m [] 0
    have hctfil : ct.filter Char.isAlpha = outs := by
      rw [hct]
      exact addGrouping_filter outs 0 (fun x hx => mem_ascii_isAlpha x (hupouts x hx))
    have hsim2 := encryptGo_encLetters outs
      (fun x hx => mem_ascii_isAlpha x (hupouts x hx)) m [] 0
    rw [hinv] at hsim2
    refine ⟨addGrouping 0 msgA, ?_, ?_⟩
    · rw [hfil2, hctfil]
      unfold EnigmaMachine.Encrypt
      rw [hsim2]
      rfl
    · exact addGrouping_filter msgA 0 hmsgAalpha

/-- Witness for C8 at a concrete uppercase initial letter. -/
theorem C8_witness :
    (isErr (Rotor.mk? ['5'] wiring1 'A') = true ↔
      (pyIsDigit ['5'] = false ∨ parseDigits ['5'] < 1 ∨ 26 < parseDigits ['5'])) ∧
    (∀ r, Rotor.mk? ['5'] wiring1 'A' = .ok r →
      r.ring_setting = parseDigits ['5'] ∧ 1 ≤ r.ring_setting ∧ r.ring_setting ≤ 26) :=
  C8_ring_setting_validation ['5'] wiring1 'A' (by decide)

/-- Witness for C3 at the concrete machine `machineAA`. -/
theorem C3_witness :
    (∃ l1 l4 d,
        dictFind machineAA.plugboard 'A' = some l1 ∧
        dictFind machineAA.reflector
          (machineAA.stepRotors.rotor2.encrypt_forwards
            (machineAA.stepRotors.rotor1.encrypt_forwards l1)) = some l4 ∧
        dictFind machineAA.plugboard
          (machineAA.stepRotors.rotor1.encrypt_backwards
            (machineAA.stepRotors.rotor2.encrypt_backwards l4)) = some d ∧
        machineAA.encryptGo [] 0 ['A'] =
          (machineAA.stepRotors,
            .ok ([] ++ [d] ++ (if (0 + 1) % 5 = 0 then [' '] else []))) ∧
        machineAA.stepRotors.rotor1 = machineAA.rotor1.rotate ∧
        machineAA.stepRotors.rotor2 =
          (if machineAA.rotor1.rotation = 17 then machineAA.rotor2.rotate
            else machineAA.rotor2) ∧
        (number_to_letter machineAA.rotor1.rotation = 'Q' ↔
          machineAA.rotor1.rotation = 17)) ∧
    (∃ m' s, machineAA.Encrypt ['H','I'] = (m', .ok s) ∧
        m'.rotor1.rotation = (machineAA.rotor1.rotation - 1 + 2) % 26 + 1 ∧
        m'.rotor2.rotation =
          (machineAA.rotor2.rotation - 1 +
            rotor2Steps machineAA.rotor1.rotation 2) % 26 + 1) ∧
    rotor2Steps 1 (3 + 26) = rotor2Steps 1 3 + 1 :=
  ⟨C3_stepping_and_path.1 machineAA (by decide) 'A' (by decide) [] 0,
   C3_stepping_and_path.2.1 machineAA (by decide) ['H','I'] (by decide),
   C3_stepping_and_path.2.2 1 (by decide) (by decide) 3⟩

/-- Witness for C5 at the concrete machine `machineAA`. -/
theorem C5_witness :
    ∃ m' letters, machineAA.Encrypt ['H','E','L','L','O'] =
        (m', .ok (addGrouping 0 letters)) ∧
      letters.length = (['H','E','L','L','O'] : List Char).length ∧
      (∀ x ∈ letters, x ∈ ascii_uppercase) ∧
      (addGrouping 0 letters).filter Char.isAlpha = letters ∧
      ((addGrouping 0 letters).getLast? = some ' ' ↔
        (['H','E','L','L','O'] : List Char).length ≠ 0 ∧
          (['H','E','L','L','O'] : List Char).length % 5 = 0) :=
  C5_grouping.1 machineAA (by decide) ['H','E','L','L','O'] (by decide)

/-- Witness for C10: the lowercase letter `h` after one uppercase letter. -/
theorem C10_witness :
    Char.isAlpha 'h' = true ∧
    dictFind machineAA.plugboard 'h' = none ∧
    ∃ m1, machineAA.Encrypt (['A'] ++ 'h' :: ['X']) = (m1, .error "KeyError") ∧
      m1.rotor1.rotation = (machineAA.rotor1.rotation - 1 + ((['A'] : List Char).length + 1)) % 26 + 1 :=
  C10_lowercase_KeyError machineAA (by decide) ['A'] (by decide) 'h' (by decide) ['X']

/-- Witness for C1: the `HELLO` round trip on `machineAA`. -/
theorem C1_witness :
    ∃ pt, (machineAA.Encrypt ctHello).2 = .ok pt ∧
      pt.filter Char.isAlpha = (['H','E','L','L','O'] : List Char).filter Char.isAlpha :=
  C1_encrypt_symmetry ['1',' ','1'] [] ['A','A'] ['H','E','L','L','O'] ctHello
    machineAA machineAfterHello rfl rfl
